import Mathlib

/-!
Verification of the ClientCloak format-preserving substitution engine
(`src/clientcloak/docx_handler.py` and its caller `src/clientcloak/uncloaker.py`).

Text is modelled as `List Char` (the engine's inputs are ASCII in all the
behaviours under study; Python's `str` case functions agree with the ASCII
case maps used here on that domain).  A paragraph is the list of its runs'
texts — the engine never interprets a run's formatting handle, it only
rewrites `run.text`, so the handle is dropped from the model.  Python
exceptions that the engine can raise (`IndexError` from `char_map[...]`,
`KeyError` from `lookup[...]`, and the internal `_FallbackNeeded` signal)
are modelled with an `Except` error type.
-/

namespace ClientCloak

abbrev Str := List Char

/-- Python `str.lower()` restricted to ASCII: per-character lowercasing. -/
def py_lower (s : Str) : Str := s.map Char.toLower

/-- Python `str.upper()` restricted to ASCII: per-character uppercasing. -/
def py_upper (s : Str) : Str := s.map Char.toUpper

/-- ASCII cased character (Python: a character with upper/lower variants). -/
def casedChar (c : Char) : Bool := c.isAlpha

/-- Python `str.isupper()`: at least one cased character and no lowercase one. -/
def py_isupper (s : Str) : Bool :=
  s.any casedChar && s.all (fun c => !casedChar c || c.isUpper)

/-- Python `str.islower()`: at least one cased character and no uppercase one. -/
def py_islower (s : Str) : Bool :=
  s.any casedChar && s.all (fun c => !casedChar c || c.isLower)

/-- Python `str.istitle()` loop: tracks whether the previous character was
cased and whether any cased character has been seen. -/
def py_istitle_aux : Str → Bool → Bool → Bool
  | [], _, cased => cased
  | c :: rest, prevCased, cased =>
    if c.isUpper then
      if prevCased then false else py_istitle_aux rest true true
    else if c.isLower then
      if !prevCased then false else py_istitle_aux rest true true
    else py_istitle_aux rest false cased

/-- Python `str.istitle()` restricted to ASCII. -/
def py_istitle (s : Str) : Bool := py_istitle_aux s false false

/-- Python `str.title()` loop. -/
def py_title_aux : Str → Bool → Str
  | [], _ => []
  | c :: rest, prevCased =>
    (if casedChar c then (if prevCased then c.toLower else c.toUpper) else c)
      :: py_title_aux rest (casedChar c)

/-- Python `str.title()` restricted to ASCII. -/
def py_title (s : Str) : Str := py_title_aux s false

/-- Python whitespace for `str.split()` (ASCII range). -/
def py_isspace (c : Char) : Bool :=
  c = ' ' || c = '\t' || c = '\n' || c = '\r' || c = '\x0b' || c = '\x0c'

/-- Python `str.split()` with no argument: split on whitespace runs,
discarding empty fields. -/
def py_split (s : Str) : List Str :=
  (List.splitOnP py_isspace s).filter (fun w => !w.isEmpty)

/-- `_is_bracketed_label` (docx_handler.py:318): a placeholder token like
`[AltCustomerName]` — length ≥ 2, starts with `[`, ends with `]`. -/
def is_bracketed_label (text : Str) : Bool :=
  text.length ≥ 2 && text.headD ' ' = '[' && text.getLastD ' ' = ']'

/-- Character-by-character tail of `_transfer_case` (docx_handler.py:364-382).
`acc` is the reversed `result` list of the Python loop; while `original`
characters remain they drive the case, afterwards the case class of the last
emitted character (`result[-1]`) is continued. -/
def transfer_charwise : Str → Str → Str → Str
  | acc, _, [] => acc.reverse
  | acc, o :: os, ch :: rest =>
    let c := if o.isUpper then ch.toUpper else if o.isLower then ch.toLower else ch
    transfer_charwise (c :: acc) os rest
  | acc, [], ch :: rest =>
    let c :=
      match acc with
      | prev :: _ => if prev.isUpper then ch.toUpper else if prev.isLower then ch.toLower else ch
      | [] => ch
    transfer_charwise (c :: acc) [] rest

/-- `_transfer_case` (docx_handler.py:328-382): transfer the case pattern of
`original` onto `replacement`.  The rules are embedded exactly as the code
orders them; note that the sentence-case branch returns
`replacement[0].upper() + replacement[1:]` — the remainder is left unchanged. -/
def transfer_case (original replacement : Str) : Str :=
  if original.isEmpty || replacement.isEmpty then replacement
  else if py_isupper original then py_upper replacement
  else if py_islower original then py_lower replacement
  else if py_istitle original then py_title replacement
  else
    let words := py_split original
    -- `if words and all(w[0].isupper() for w in words if w)` — empty words
    -- are skipped by the generator's filter (they cannot occur from split()).
    if !words.isEmpty && words.all (fun w => w.isEmpty || (w.headD ' ').isUpper) then
      py_title replacement
    else if (original.headD ' ').isUpper then
      match replacement with
      | [] => []
      | c :: rest => c.toUpper :: rest
    else
      transfer_charwise [] original replacement

/-- The per-match replacement computation shared by both strategies
(docx_handler.py:474-477 and 601-603): case transfer is applied only when
`match_case` is set and the template is not a bracketed label. -/
def apply_case (match_case : Bool) (matched template : Str) : Str :=
  if match_case && !is_bracketed_label template then transfer_case matched template
  else template

/-! ## Replacement set compilation (docx_handler.py:213-222)

`replace_text_in_document` sorts the dictionary keys longest-first with
Python's stable `sorted(keys, key=len, reverse=True)` and compiles the
alternation `re.compile("|".join(re.escape(t) for t in sorted_targets),
re.IGNORECASE)`.  Since every alternative is an escaped literal, the compiled
regex matches, at a given position, the first alternative whose text equals
the candidate span case-insensitively.  The lookup dict
`{k.lower(): v for k, v in replacements.items()}` maps each lowercased key to
the template of its last occurrence (later dict items overwrite earlier). -/

/-- Stable insertion step for descending-length sort: a new key goes after
every already-placed key of greater or equal length. -/
def insertByLenDesc (x : Str) : List Str → List Str
  | [] => [x]
  | y :: ys => if x.length ≤ y.length then y :: insertByLenDesc x ys else x :: y :: ys

/-- `sorted(keys, key=len, reverse=True)`: stable, longest first. -/
def sortTargets (ks : List Str) : List Str :=
  ks.foldl (fun acc k => insertByLenDesc k acc) []

/-- The alternation's ordered target list for a replacement dictionary
(given as an association list in dict insertion order). -/
def compileTargets (repl : List (Str × Str)) : List Str :=
  sortTargets (repl.map (·.1))

/-- `lookup[key]` for `lookup = {k.lower(): v for k, v in replacements.items()}`:
the template of the last dictionary item whose lowercased key equals `key`. -/
def lookupTpl (repl : List (Str × Str)) (key : Str) : Option Str :=
  (repl.reverse.find? (fun p => py_lower p.1 == key)).map (·.2)

/-! ## The matcher (`pattern.finditer` / `pattern.search`) -/

/-- Try the alternation's branches in order at position `i`: the first target
whose lowercased text equals the lowercased span of the same length starting
at `i` matches; the matched text is that span of the subject. -/
def tryAlts (ts : List Str) (text : Str) (i : Nat) : Option Str :=
  match ts with
  | [] => none
  | t :: rest =>
    if i + t.length ≤ text.length
        && py_lower ((text.drop i).take t.length) == py_lower t then
      some ((text.drop i).take t.length)
    else tryAlts rest text i

/-- Fuelled scanning loop of `pattern.finditer(text)`: at each position the
regex is attempted; on a match of length `L` the scan resumes at `pos + L`
(or `pos + 1` after a zero-width match), exactly Python's scanner behaviour.
Each element is `(start, end, matched_text)`.  The fuel only forces
termination; `finditerGo_congr` below shows any sufficient fuel gives the
same list. -/
def finditerGo (ts : List Str) (text : Str) : Nat → Nat → List (Nat × Nat × Str)
  | _, 0 => []
  | pos, fuel + 1 =>
    if text.length < pos then []
    else
      match tryAlts ts text pos with
      | some m => (pos, pos + m.length, m) :: finditerGo ts text (pos + max m.length 1) fuel
      | none => finditerGo ts text (pos + 1) fuel

/-- `pattern.finditer(text)` restricted to matches starting at or after `pos`. -/
def finditerFrom (ts : List Str) (text : Str) (pos : Nat) : List (Nat × Nat × Str) :=
  finditerGo ts text pos (text.length + 1 - pos)

/-- `pattern.finditer(text)`. -/
def finditer (ts : List Str) (text : Str) : List (Nat × Nat × Str) :=
  finditerGo ts text 0 (text.length + 1)

/-! ## Engine state and errors -/

/-- Python exceptions reachable from the engine: the internal
`_FallbackNeeded` signal (docx_handler.py:429) and the runtime `IndexError`
and `KeyError` that subscripting `char_map[...]` and `lookup[...]` can raise. -/
inductive PyErr where
  | fallbackNeeded
  | indexError
  | keyError
deriving DecidableEq, Repr

/-- Python list subscription with an `Int` index: negative indices address
from the end; out-of-range raises `IndexError`. -/
def py_get (l : List α) (i : Int) : Except PyErr α :=
  let j : Int := if i < 0 then (l.length : Int) + i else i
  if j < 0 then .error .indexError
  else
    match l.get? j.toNat with
    | some a => .ok a
    | none => .error .indexError

/-- `_build_char_map` (docx_handler.py:433-442): one `(run_index, offset)`
entry per character of the concatenated run texts. -/
def build_char_map (runs : List Str) : List (Nat × Nat) :=
  (runs.enum.map (fun p => (List.range p.2.length).map (fun o => (p.1, o)))).flatten

/-! ## Strategy 1: format-preserving cross-run splicing
(docx_handler.py:449-572).  Runs are their texts; `List.set` models the
in-place `run.text` assignments. -/

/-- `_splice_single_run` (docx_handler.py:508-511): replace `length`
characters starting at `offset` within run `idx`.
`run.text = text[:offset] + new_text + text[offset + length:]`. -/
def splice_single_run (runs : List Str) (idx offset length : Nat) (newText : Str) :
    Except PyErr (List Str) :=
  match runs.get? idx with
  | none => .error .indexError
  | some text => .ok (runs.set idx (text.take offset ++ newText ++ text.drop (offset + length)))

/-- `_splice_two_runs` (docx_handler.py:514-540).  The source re-derives
`first_offset`/`last_offset` from `char_map[match_start]` and
`char_map[match_end - 1]`; the caller resolved the same subscripts already,
so they are passed resolved.  First run keeps its text before the match and
gains the full replacement; second run keeps its text after the match. -/
def splice_two_runs (runs : List Str) (firstIdx lastIdx firstOffset lastOffset : Nat)
    (newText : Str) : Except PyErr (List Str) :=
  match runs.get? firstIdx, runs.get? lastIdx with
  | some f, some l =>
    .ok ((runs.set firstIdx (f.take firstOffset ++ newText)).set lastIdx (l.drop (lastOffset + 1)))
  | _, _ => .error .indexError

/-- Clear runs `a, a+1, …, b-1` to empty — the
`for mid_idx in range(first_idx + 1, last_idx)` loop of `_splice_multi_runs`. -/
def clearMids (runs : List Str) (a b : Nat) : List Str :=
  (List.range' a (b - a)).foldl (fun rs i => rs.set i []) runs

/-- `_splice_multi_runs` (docx_handler.py:543-572): replacement into the
first run, middle runs blanked, matched portion removed from the last run. -/
def splice_multi_runs (runs : List Str) (firstIdx lastIdx firstOffset lastOffset : Nat)
    (newText : Str) : Except PyErr (List Str) :=
  match runs.get? firstIdx, runs.get? lastIdx with
  | some f, some l =>
    let runs1 := runs.set firstIdx (f.take firstOffset ++ newText)
    let runs2 := clearMids runs1 (firstIdx + 1) lastIdx
    .ok (runs2.set lastIdx (l.drop (lastOffset + 1)))
  | _, _ => .error .indexError

/-- One iteration of the `for match in reversed(matches)` loop of
`_replace_preserving_format` (docx_handler.py:471-503): look up the
template, apply case transfer unless the template is a bracketed label,
resolve the touched runs through the character map, and dispatch on the
span count. -/
def processMatch (charMap : List (Nat × Nat)) (lookup : List (Str × Str))
    (matchCase : Bool) (runs : List Str) (m : Nat × Nat × Str) :
    Except PyErr (List Str) := do
  let (start, stop, matchedText) := m
  let newTextTemplate ←
    match lookupTpl lookup (py_lower matchedText) with
    | some t => Except.ok t
    | none => Except.error PyErr.keyError
  let newText := apply_case matchCase matchedText newTextTemplate
  let matchLen := stop - start
  let (firstRunIdx, firstOffset) ← py_get charMap (start : Int)
  let (lastRunIdx, lastOffset) ← py_get charMap ((stop : Int) - 1)
  let spanCount := lastRunIdx - firstRunIdx + 1
  if spanCount = 1 then
    splice_single_run runs firstRunIdx firstOffset matchLen newText
  else if spanCount = 2 then
    splice_two_runs runs firstRunIdx lastRunIdx firstOffset lastOffset newText
  else
    splice_multi_runs runs firstRunIdx lastRunIdx firstOffset lastOffset newText

/-- `_replace_preserving_format` (docx_handler.py:449-505): all matches are
computed once on the flattened text, then processed right-to-left so earlier
indices stay valid; the return value is the number of matches. -/
def replace_preserving_format (runs : List Str) (fullText : Str)
    (charMap : List (Nat × Nat)) (ts : List Str) (lookup : List (Str × Str))
    (matchCase : Bool) : Except PyErr (List Str × Nat) := do
  let ms := finditer ts fullText
  if ms.isEmpty then
    return (runs, 0)
  let finalRuns ← ms.reverse.foldlM (processMatch charMap lookup matchCase) runs
  return (finalRuns, ms.length)

/-! ## Strategy 2: run-collapsing fallback (docx_handler.py:579-628) -/

/-- `pattern.sub(_replacer, full_text)` over the scanner's match list:
gap before each match, then the replacer's output, then the rest. -/
def py_sub_aux (lookup : List (Str × Str)) (matchCase : Bool) (text : Str) :
    Nat → List (Nat × Nat × Str) → Except PyErr Str
  | pos, [] => .ok (text.drop pos)
  | pos, (s, e, m) :: rest => do
    let tpl ←
      match lookupTpl lookup (py_lower m) with
      | some t => Except.ok t
      | none => Except.error PyErr.keyError
    let tail ← py_sub_aux lookup matchCase text e rest
    return ((text.take s).drop pos) ++ apply_case matchCase m tpl ++ tail

/-- `_replace_collapsing_runs` (docx_handler.py:579-628): regex-substitute
the flattened text in one pass and re-render the paragraph as a single run
(formatting concerns are outside the text model).  The count is the number
of replacer invocations, i.e. the number of matches. -/
def replace_collapsing_runs (runs : List Str) (fullText : Str) (ts : List Str)
    (lookup : List (Str × Str)) (matchCase : Bool) : Except PyErr (List Str × Nat) := do
  let ms := finditer ts fullText
  let newText ← py_sub_aux lookup matchCase fullText 0 ms
  if ms.length = 0 then
    return (runs, 0)
  return ([newText], ms.length)

/-! ## Paragraph orchestration (docx_handler.py:389-426, 184-242) -/

/-- `_replace_in_paragraph` (docx_handler.py:389-426).  The guards: no runs,
empty flattened text, or no `pattern.search` hit are each a no-op.  The
`try/except _FallbackNeeded` around the format-preserving strategy only
catches that one exception; any other error propagates. -/
def replace_in_paragraph (runs : List Str) (ts : List Str) (lookup : List (Str × Str))
    (matchCase : Bool) : Except PyErr (List Str × Nat) :=
  if runs.isEmpty then .ok (runs, 0)
  else
    let fullText := runs.flatten
    if fullText.isEmpty then .ok (runs, 0)
    else if (finditer ts fullText).isEmpty then .ok (runs, 0)
    else
      match replace_preserving_format runs fullText (build_char_map runs) ts lookup matchCase with
      | .ok r => .ok r
      | .error .fallbackNeeded => replace_collapsing_runs runs fullText ts lookup matchCase
      | .error e => .error e

/-- `replace_text_in_document` (docx_handler.py:184-242).  The document is
modelled as the list of its paragraphs in traversal order — body paragraphs,
table-cell paragraphs (nested tables included) and non-inherited
header/footer paragraphs are all handed to the same `_replace_in_paragraph`
with the same compiled pattern and lookup, and the counts are summed.  An
empty replacement dictionary returns 0 without touching anything. -/
def replace_text_in_document (doc : List (List Str)) (replacements : List (Str × Str))
    (matchCase : Bool) : Except PyErr (List (List Str) × Nat) :=
  if replacements.isEmpty then .ok (doc, 0)
  else
    let ts := compileTargets replacements
    doc.foldlM
      (fun acc para => do
        let (newRuns, n) ← replace_in_paragraph para ts replacements matchCase
        return (acc.1 ++ [newRuns], acc.2 + n))
      ([], 0)

/-! ## Proof-support definitions -/

/-- The slice `text[a:b]` (for `a ≤ b`): the segment of `text` between
positions `a` and `b`. -/
def seg (text : Str) (a b : Nat) : Str := (text.drop a).take (b - a)

/-- Flat position where run `i`'s text begins in the concatenated paragraph. -/
def runStart (runs : List Str) (i : Nat) : Nat :=
  ((runs.take i).map List.length).sum

/-- Length of run `i`'s text (0 beyond the run list). -/
def lenRun (runs : List Str) (i : Nat) : Nat := (runs.getD i []).length

/-- Flat position just past run `i`'s text. -/
def runEnd (runs : List Str) (i : Nat) : Nat := runStart runs i + lenRun runs i

/-- State invariant of the right-to-left splicing loop: all flat positions
below the boundary `b` are still addressed correctly by the character map of
the original runs — runs that end at or before `b` are untouched, and every
run keeps its original text up to position `b`. -/
def Inv (orig cur : List Str) (b : Nat) : Prop :=
  cur.length = orig.length ∧
  (∀ i, runEnd orig i ≤ b → cur.getD i [] = orig.getD i []) ∧
  (∀ i, runStart orig i ≤ b →
    (cur.getD i []).take (b - runStart orig i) = (orig.getD i []).take (b - runStart orig i))

/-- Start offset of the first of the remaining matches (the processing
boundary), or the current boundary if none remain. -/
def headStart (ms : List (Nat × Nat × Str)) (b : Nat) : Nat :=
  match ms with
  | [] => b
  | (s, _, _) :: _ => s

/-- The rewritten text from the first remaining match's start up to the
boundary `b`: each match's replacement followed by the untouched gap up to
the next match (the per-match analogue of `pattern.sub`'s output). -/
def subChunk (lookup : List (Str × Str)) (matchCase : Bool) (flat : Str) (b : Nat) :
    List (Nat × Nat × Str) → Option Str
  | [] => some []
  | (_, e, m) :: rest => do
    let tpl ← lookupTpl lookup (py_lower m)
    let tail ← subChunk lookup matchCase flat b rest
    some (apply_case matchCase m tpl ++ seg flat e (headStart rest b) ++ tail)

/-- Shift all offsets of a match list by `k` (for reasoning about scans of a
string with a prefix attached). -/
def shiftMatches (k : Nat) (ms : List (Nat × Nat × Str)) : List (Nat × Nat × Str) :=
  ms.map (fun x => (x.1 + k, x.2.1 + k, x.2.2))

/-- Well-formed scanner output from position `lo`: matches are in ascending
order, non-overlapping, non-empty, within bounds, and each match records the
subject's actual text span. -/
def ChainMatches (text : Str) : Nat → List (Nat × Nat × Str) → Prop
  | _, [] => True
  | lo, (s, e, m) :: rest =>
    lo ≤ s ∧ s < e ∧ e ≤ text.length ∧ m = seg text s e ∧ ChainMatches text e rest

/-- A string containing neither `[` nor `]`. -/
def NoBrk (s : Str) : Prop := ∀ c ∈ s, c ≠ '[' ∧ c ≠ ']'

/-- A well-formed placeholder token: bracket-delimited with a bracket-free
interior (the shape of generated placeholders such as `[PARTY_A]`). -/
def CleanTok (p : Str) : Prop :=
  ∃ mid, p = '[' :: mid ++ [']'] ∧ NoBrk mid

/-- Number of (possibly overlapping) occurrences of `needle` in `hay`. -/
def countOccur (needle hay : Str) : Nat :=
  ((List.range (hay.length + 1)).filter
    (fun i => (hay.drop i).take needle.length == needle)).length

end ClientCloak

section Sanity
open ClientCloak
example : "AbC".toList = ['A', 'b', 'C'] := rfl
example : py_lower "AbC".toList = "abc".toList := rfl
example : py_istitle "Acme Corp".toList = true := rfl
example : py_istitle "Acme USA Inc".toList = false := rfl
example : py_title "vendor inc".toList = "Vendor Inc".toList := rfl
example : py_split "  a b  ".toList = ["a".toList, "b".toList] := rfl
example : py_isupper "ACME".toList = true := by decide
example : transfer_case "ACME".toList "vendor".toList = "VENDOR".toList := rfl
example : transfer_case "acme".toList "Vendor".toList = "vendor".toList := rfl
example : transfer_case "Acme Corp".toList "vendor inc".toList = "Vendor Inc".toList := rfl
example : transfer_case "BigCo LLC".toList "vendor inc".toList = "Vendor Inc".toList := rfl
example : transfer_case "AbCd".toList "wxyz".toList = "Wxyz".toList := rfl
example : transfer_case "Hello world".toList "goodbye earth".toList = "Goodbye earth".toList := rfl
example : transfer_case "Hello world".toList "aBC".toList = "ABC".toList := rfl
example : transfer_case "aBcDe".toList "xyzw".toList = "xYzW".toList := rfl
example : sortTargets ["Acme".toList, "Acme Corporation".toList] =
    ["Acme Corporation".toList, "Acme".toList] := rfl
example : finditer ["Acme Corporation".toList, "Acme".toList]
      "Acme Corporation and Acme".toList =
    [(0, 16, "Acme Corporation".toList), (21, 25, "Acme".toList)] := rfl
example : finditer ["acme".toList] "ACME shipped.".toList = [(0, 4, "ACME".toList)] := rfl
example : finditer ["".toList] "ab".toList =
    [(0, 0, []), (1, 1, []), (2, 2, [])] := rfl
example : build_char_map ["ab".toList, "c".toList] = [(0, 0), (0, 1), (1, 0)] := rfl
example : py_get [10, 20, 30] (-1) = Except.ok 30 := rfl
example : py_get [10, 20, 30] 3 = (Except.error PyErr.indexError : Except PyErr Nat) := rfl
example : replace_text_in_document [["ACME shipped.".toList]] [("acme".toList, "vendor".toList)] true =
    .ok ([["VENDOR shipped.".toList]], 1) := rfl
example : replace_text_in_document [["Acme Corporation and Acme".toList]]
      [("Acme Corporation".toList, "[PARTY_A]".toList), ("Acme".toList, "[SHORT]".toList)] true =
    .ok ([["[PARTY_A] and [SHORT]".toList]], 2) := rfl
example : replace_text_in_document [["Agreement with Acme".toList, " Corporation for services.".toList]]
      [("Acme Corporation".toList, "[VENDOR]".toList)] true =
    .ok ([["Agreement with [VENDOR]".toList, " for services.".toList]], 1) := rfl
example : replace_text_in_document [["ab".toList]] [([], "X".toList)] true =
    .error .indexError := rfl
example : replace_collapsing_runs ["ab".toList] "ab".toList [[]] [([], "X".toList)] true =
    .ok (["XaXbX".toList], 3) := rfl
end Sanity

namespace ClientCloak

/-! ## List lemma kit -/

theorem take_congr_of_take_eq {x y : Str} {n m : Nat} (h : x.take n = y.take n)
    (hmn : m ≤ n) : x.take m = y.take m := by
  have hx : x.take m = (x.take n).take m := by
    rw [List.take_take, Nat.min_eq_left hmn]
  have hy : y.take m = (y.take n).take m := by
    rw [List.take_take, Nat.min_eq_left hmn]
  rw [hx, h, ← hy]

theorem le_length_of_take_eq {x y : Str} {u : Nat} (h : x.take u = y.take u)
    (hy : u ≤ y.length) : u ≤ x.length := by
  have := congrArg List.length h
  simp [List.length_take] at this
  omega

theorem drop_split {x : Str} {m n : Nat} (hmn : m ≤ n) :
    x.drop m = (x.take n).drop m ++ x.drop n := by
  have h1 : (x.take n).drop m = (x.drop m).take (n - m) := by
    rw [List.take_drop, Nat.add_sub_cancel' hmn]
  have h2 : x.drop n = (x.drop m).drop (n - m) := by
    rw [List.drop_drop]
    congr 1
    omega
  rw [h1, h2, List.take_append_drop]

theorem flatten_set {l : List Str} {j : Nat} {v : Str} (h : j < l.length) :
    (l.set j v).flatten = (l.take j).flatten ++ v ++ (l.drop (j + 1)).flatten := by
  rw [List.set_eq_take_cons_drop _ h, List.flatten_append, List.flatten_cons,
    List.append_assoc]

theorem flatten_decomp {l : List Str} {j : Nat} (h : j < l.length) :
    l.flatten = (l.take j).flatten ++ l.getD j [] ++ (l.drop (j + 1)).flatten := by
  have hgd : l.getD j [] = l[j] := by
    simp [List.getElem?_eq_getElem h]
  rw [hgd]
  conv_lhs => rw [← List.take_append_drop j l, List.drop_eq_getElem_cons h]
  rw [List.flatten_append, List.flatten_cons, List.append_assoc]

theorem flatten_replicate_nil (n : Nat) : (List.replicate n ([] : Str)).flatten = [] := by
  induction n with
  | zero => rfl
  | succ k ih => simp [List.replicate_succ, ih]

theorem getD_of_lt {l : List α} {i : Nat} {d : α} (h : i < l.length) :
    ∃ a, l[i]? = some a ∧ l.getD i d = a := by
  refine ⟨l[i], List.getElem?_eq_getElem h, ?_⟩
  simp [List.getD, List.getElem?_eq_getElem h]

theorem take_eq_of_getD_eq {x y : List Str} (hlen : x.length = y.length) {j : Nat}
    (h : ∀ i, i < j → x.getD i [] = y.getD i []) : x.take j = y.take j := by
  apply List.ext_getElem?
  intro i
  by_cases hij : i < j
  · rw [List.getElem?_take_of_lt hij, List.getElem?_take_of_lt hij]
    by_cases hx : i < x.length
    · obtain ⟨a, ha, hda⟩ := getD_of_lt (d := ([] : Str)) hx
      obtain ⟨b, hb, hdb⟩ := getD_of_lt (d := ([] : Str)) (hlen ▸ hx)
      rw [ha, hb]
      have := h i hij
      rw [hda, hdb] at this
      rw [this]
    · rw [List.getElem?_eq_none (by omega), List.getElem?_eq_none (by omega)]
  · rw [List.getElem?_eq_none (by simp [List.length_take]; omega),
      List.getElem?_eq_none (by simp [List.length_take]; omega)]

/-! ## Run geometry -/

theorem runStart_zero (runs : List Str) : runStart runs 0 = 0 := rfl

theorem runStart_cons (r : Str) (rs : List Str) (j : Nat) :
    runStart (r :: rs) (j + 1) = r.length + runStart rs j := by
  simp [runStart, List.take_succ_cons]

theorem lenRun_cons (r : Str) (rs : List Str) (j : Nat) :
    lenRun (r :: rs) (j + 1) = lenRun rs j := rfl

theorem runEnd_eq_runStart_succ (runs : List Str) (j : Nat) :
    runEnd runs j = runStart runs (j + 1) := by
  induction runs generalizing j with
  | nil => simp [runEnd, runStart, lenRun]
  | cons r rs ih =>
    cases j with
    | zero => simp [runEnd, runStart, lenRun, List.take_succ_cons]
    | succ k =>
      have := ih k
      simp only [runEnd, runStart_cons, lenRun_cons] at *
      omega

theorem runStart_mono (runs : List Str) {i j : Nat} (h : i ≤ j) :
    runStart runs i ≤ runStart runs j := by
  induction runs generalizing i j with
  | nil => simp [runStart]
  | cons r rs ih =>
    cases i with
    | zero => simp [runStart_zero, runStart]
    | succ i' =>
      cases j with
      | zero => omega
      | succ j' =>
        rw [runStart_cons, runStart_cons]
        exact Nat.add_le_add_left (ih (Nat.le_of_succ_le_succ h)) _

theorem runEnd_le_runStart {runs : List Str} {i j : Nat} (h : i < j) :
    runEnd runs i ≤ runStart runs j := by
  rw [runEnd_eq_runStart_succ]
  exact runStart_mono runs h

theorem flatten_take_runStart (runs : List Str) (j : Nat) :
    runs.flatten.take (runStart runs j) = (runs.take j).flatten := by
  induction runs generalizing j with
  | nil => simp [runStart]
  | cons r rs ih =>
    cases j with
    | zero => simp [runStart_zero]
    | succ k =>
      rw [runStart_cons]
      simp only [List.flatten_cons, List.take_succ_cons]
      rw [List.take_append, ih]

theorem flat_take_in_run (runs : List Str) {j u : Nat} (hu : u ≤ lenRun runs j) :
    runs.flatten.take (runStart runs j + u) =
      (runs.take j).flatten ++ (runs.getD j []).take u := by
  induction runs generalizing j with
  | nil =>
    simp [lenRun] at hu
    simp [runStart, hu]
  | cons r rs ih =>
    cases j with
    | zero =>
      simp only [runStart_zero, Nat.zero_add, List.flatten_cons, List.take_zero,
        List.flatten_nil, List.nil_append, List.getD_cons_zero]
      have : u ≤ r.length := hu
      rw [List.take_append_of_le_length this]
    | succ k =>
      rw [runStart_cons]
      simp only [List.flatten_cons, List.take_succ_cons, List.getD_cons_succ]
      rw [Nat.add_assoc, List.take_append, ih hu, List.append_assoc]

theorem runStart_length_le (runs : List Str) (j : Nat) :
    runStart runs j ≤ runs.flatten.length := by
  have h : runs.map List.length = (runs.take j).map List.length
      ++ (runs.drop j).map List.length := by
    rw [← List.map_append, List.take_append_drop]
  rw [List.length_flatten, h, List.sum_append]
  unfold runStart
  omega

end ClientCloak

namespace ClientCloak

/-! ## Character map characterization -/

theorem build_char_map_cons (r : Str) (rs : List Str) :
    build_char_map (r :: rs) =
      (List.range r.length).map (fun o => (0, o))
        ++ (build_char_map rs).map (fun p => (p.1 + 1, p.2)) := by
  unfold build_char_map
  rw [List.enum_cons']
  rw [List.map_cons, List.flatten_cons]
  congr 1
  rw [List.map_flatten, List.map_map, List.map_map]
  congr 1
  apply List.map_congr_left
  intro p _
  simp [Prod.map, List.map_map]

theorem length_build_char_map (runs : List Str) :
    (build_char_map runs).length = runs.flatten.length := by
  induction runs with
  | nil => rfl
  | cons r rs ih =>
    rw [build_char_map_cons]
    simp [ih]

theorem charMap_get (runs : List Str) (p j u : Nat) :
    (build_char_map runs)[p]? = some (j, u) ↔
      (u < lenRun runs j ∧ p = runStart runs j + u) := by
  induction runs generalizing p j with
  | nil =>
    simp only [build_char_map, List.enum_nil, List.map_nil, List.flatten_nil,
      List.getElem?_nil]
    constructor
    · intro h
      exact absurd h (by simp)
    · rintro ⟨hu, _⟩
      simp [lenRun] at hu
  | cons r rs ih =>
    rw [build_char_map_cons]
    by_cases hp : p < r.length
    · rw [List.getElem?_append_left (by simpa using hp)]
      rw [List.getElem?_map]
      rw [List.getElem?_range hp]
      simp only [Option.map_some']
      constructor
      · intro h
        have h2 : (0, p) = (j, u) := Option.some.inj h
        injection h2 with hj hu
        subst hj
        subst hu
        exact ⟨hp, by simp [runStart_zero]⟩
      · rintro ⟨hu, hpe⟩
        cases j with
        | zero =>
          simp only [runStart_zero, Nat.zero_add] at hpe
          subst hpe
          rfl
        | succ k =>
          exfalso
          rw [runStart_cons] at hpe
          omega
    · rw [List.getElem?_append_right (by simpa using Nat.le_of_not_lt hp)]
      simp only [List.length_map, List.length_range]
      rw [List.getElem?_map]
      constructor
      · intro h
        cases hcm : (build_char_map rs)[p - r.length]? with
        | none => rw [hcm] at h; exact absurd h (by simp)
        | some q =>
          rw [hcm] at h
          simp only [Option.map_some'] at h
          have hq : (q.1 + 1, q.2) = (j, u) := Option.some.inj h
          injection hq with hq1 hq2
          cases j with
          | zero => omega
          | succ k =>
            have h1 : q.1 = k := by omega
            have h2 : q.2 = u := hq2
            have := (ih (p - r.length) k).mp (by rw [← h1, ← h2, hcm])
            rcases this with ⟨hu, hpe⟩
            refine ⟨hu, ?_⟩
            rw [runStart_cons]
            omega
      · rintro ⟨hu, hpe⟩
        cases j with
        | zero =>
          exfalso
          have : u < r.length := hu
          simp only [runStart_zero, Nat.zero_add] at hpe
          omega
        | succ k =>
          rw [runStart_cons] at hpe
          have : (build_char_map rs)[p - r.length]? = some (k, u) :=
            (ih (p - r.length) k).mpr ⟨hu, by omega⟩
          rw [this]
          simp

theorem charMap_exists (runs : List Str) {p : Nat} (hp : p < runs.flatten.length) :
    ∃ j u, (build_char_map runs)[p]? = some (j, u) := by
  have hlen : p < (build_char_map runs).length := by
    rw [length_build_char_map]; exact hp
  exact ⟨(build_char_map runs)[p].1, (build_char_map runs)[p].2,
    by rw [List.getElem?_eq_getElem hlen]⟩

/-- Flat-position order determines run order. -/
theorem run_order {runs : List Str} {j u j' u' : Nat}
    (_h : u < lenRun runs j) (h' : u' < lenRun runs j')
    (hle : runStart runs j + u ≤ runStart runs j' + u') : j ≤ j' := by
  by_contra hgt
  have hjj : j' < j := Nat.lt_of_not_le hgt
  have h1 : runEnd runs j' ≤ runStart runs j := runEnd_le_runStart hjj
  unfold runEnd at h1
  omega

/-! ## clearMids structure -/

theorem clearMids_eq {l : List Str} {a b : Nat} (hab : a ≤ b) (hb : b ≤ l.length) :
    clearMids l a b = l.take a ++ List.replicate (b - a) [] ++ l.drop b := by
  obtain ⟨n, hn⟩ : ∃ n, b = a + n := ⟨b - a, by omega⟩
  subst hn
  induction n generalizing a l with
  | zero =>
    simp [clearMids, List.range']
  | succ k ih =>
    have ha : a < l.length := by omega
    have hstep : clearMids l a (a + (k + 1)) = clearMids (l.set a []) (a + 1) (a + 1 + k) := by
      unfold clearMids
      have hr : List.range' a (a + (k + 1) - a) = a :: List.range' (a + 1) (a + 1 + k - (a + 1)) := by
        have h1 : a + (k + 1) - a = k + 1 := by omega
        have h2 : a + 1 + k - (a + 1) = k := by omega
        rw [h1, h2, List.range'_succ]
      rw [hr, List.foldl_cons]
    rw [hstep, ih (a := a + 1) (l := l.set a []) (by omega)
      (by rw [List.length_set]; omega)]
    have hset : l.set a [] = l.take a ++ [] :: l.drop (a + 1) :=
      List.set_eq_take_cons_drop _ ha
    have htake : (l.set a []).take (a + 1) = l.take a ++ [([] : Str)] := by
      rw [hset]
      have hlen : (l.take a).length = a := List.length_take_of_le (Nat.le_of_lt ha)
      rw [List.take_append_eq_append_take, List.take_of_length_le (by omega), hlen]
      have h1 : a + 1 - a = 1 := by omega
      rw [h1]
      rfl
    have hdrop : (l.set a []).drop (a + 1 + k) = l.drop (a + 1 + k) := by
      rw [List.drop_set]
      simp only [if_pos (by omega : a < a + 1 + k)]
    rw [htake, hdrop]
    have hidx1 : a + 1 + k - (a + 1) = k := by omega
    have hidx2 : a + (k + 1) - a = k + 1 := by omega
    have hidx3 : a + 1 + k = a + (k + 1) := by omega
    rw [hidx1, hidx2, hidx3]
    simp [List.append_assoc, List.replicate_succ]

theorem length_clearMids (l : List Str) (a b : Nat) :
    (clearMids l a b).length = l.length := by
  unfold clearMids
  induction List.range' a (b - a) generalizing l with
  | nil => rfl
  | cons x xs ih => simp [List.foldl_cons, ih]

end ClientCloak

namespace ClientCloak

/-! ## Splicer state invariant lemmas -/

theorem Inv_init (orig : List Str) (b : Nat) : Inv orig orig b :=
  ⟨rfl, fun _ _ => rfl, fun _ _ => rfl⟩

theorem take_split {x : Str} {a b : Nat} (hab : a ≤ b) :
    x.take b = x.take a ++ seg x a b := by
  unfold seg
  have hba : a + (b - a) = b := by omega
  have h1 : (x.drop a).take (b - a) = (x.take b).drop a := by
    rw [List.take_drop, hba]
  have h2 : x.take a = (x.take b).take a := by
    rw [List.take_take, Nat.min_eq_left hab]
  rw [h1, h2, List.take_append_drop]

theorem py_get_nat (l : List α) (n : Nat) :
    py_get l (n : Int) =
      match l[n]? with
      | some a => .ok a
      | none => .error .indexError := by
  have h0 : ¬ ((n : Int) < 0) := by omega
  simp only [py_get, if_neg h0, Int.toNat_natCast, List.get?_eq_getElem?]

theorem py_get_pred (l : List α) {e : Nat} (he : 1 ≤ e) :
    py_get l ((e : Int) - 1) = py_get l ((e - 1 : Nat) : Int) := by
  congr 1
  omega

/-- Splitting the splicer's current state at a flat position `q ≤ b` inside
run `j`: runs before `j` are pristine, run `j`'s prefix up to `q` is
pristine, and the current text from `q` on is the original segment up to the
boundary followed by the already-rewritten tail. -/
theorem state_split {orig cur : List Str} {b : Nat} {R : Str}
    (hInv : Inv orig cur b)
    (hjoin : cur.flatten = orig.flatten.take b ++ R)
    {q j u : Nat} (hq : q = runStart orig j + u) (hu : u ≤ lenRun orig j)
    (hqb : q ≤ b) (hj : j < orig.length) :
    (cur.take j).flatten = orig.flatten.take (runStart orig j)
    ∧ (cur.getD j []).take u = (orig.getD j []).take u
    ∧ u ≤ (cur.getD j []).length
    ∧ (cur.getD j []).drop u ++ (cur.drop (j + 1)).flatten = seg orig.flatten q b ++ R := by
  obtain ⟨hlen, hpris, hpref⟩ := hInv
  have hrsq : runStart orig j ≤ q := by omega
  have htj : cur.take j = orig.take j := by
    apply take_eq_of_getD_eq hlen
    intro i hij
    exact hpris i (le_trans (runEnd_le_runStart hij) (le_trans hrsq hqb))
  have hp1 : (cur.take j).flatten = orig.flatten.take (runStart orig j) := by
    rw [htj, flatten_take_runStart]
  have hpj := hpref j (le_trans hrsq hqb)
  have h2 : (cur.getD j []).take u = (orig.getD j []).take u :=
    take_congr_of_take_eq hpj (by omega)
  have h3 : u ≤ (cur.getD j []).length := le_length_of_take_eq h2 hu
  refine ⟨hp1, h2, h3, ?_⟩
  have hjc : j < cur.length := by rw [hlen]; exact hj
  have hdec := flatten_decomp (l := cur) (j := j) hjc
  have hflatb : orig.flatten.take b = orig.flatten.take q ++ seg orig.flatten q b :=
    take_split hqb
  have hflatq : orig.flatten.take q =
      orig.flatten.take (runStart orig j) ++ (orig.getD j []).take u := by
    rw [hq, flat_take_in_run _ hu, flatten_take_runStart]
  have hcurj : cur.getD j [] = (orig.getD j []).take u ++ (cur.getD j []).drop u := by
    conv_lhs => rw [← List.take_append_drop u (cur.getD j [])]
    rw [h2]
  have e1 : orig.flatten.take (runStart orig j) ++
      ((orig.getD j []).take u ++ ((cur.getD j []).drop u ++ (cur.drop (j + 1)).flatten)) =
      cur.flatten := by
    conv_rhs => rw [hdec, hp1]
    conv_rhs => rw [hcurj]
    simp [List.append_assoc]
  have e2 : cur.flatten = orig.flatten.take (runStart orig j) ++
      ((orig.getD j []).take u ++ (seg orig.flatten q b ++ R)) := by
    rw [hjoin, hflatb, hflatq]
    simp [List.append_assoc]
  exact List.append_cancel_left (List.append_cancel_left (e1.trans e2))

end ClientCloak

namespace ClientCloak

/-! ## Small helpers for splice reasoning -/

theorem getD_set_self {l : List α} {i : Nat} {v d : α} (h : i < l.length) :
    (l.set i v).getD i d = v := by
  simp [List.getD_eq_getElem?_getD, List.getElem?_set_self h]

theorem getD_set_ne {l : List α} {i j : Nat} {v d : α} (h : i ≠ j) :
    (l.set i v).getD j d = l.getD j d := by
  simp [List.getD_eq_getElem?_getD, List.getElem?_set_ne h]

theorem getD_append_left {A B : List α} {i : Nat} {d : α} (h : i < A.length) :
    (A ++ B).getD i d = A.getD i d := by
  simp [List.getD_eq_getElem?_getD, List.getElem?_append_left h]

theorem take_append_of_length {x : List α} (y : List α) {n : Nat} (h : x.length = n) :
    (x ++ y).take n = x := by
  subst h
  exact List.take_left x y

theorem set_take_succ {l : List α} {j : Nat} {v : α} (h : j < l.length) :
    (l.set j v).take (j + 1) = l.take j ++ [v] := by
  rw [List.set_eq_take_cons_drop _ h]
  rw [List.take_append_eq_append_take, List.take_of_length_le
    (by rw [List.length_take_of_le (Nat.le_of_lt h)]; omega)]
  rw [List.length_take_of_le (Nat.le_of_lt h)]
  have h1 : j + 1 - j = 1 := by omega
  rw [h1]
  rfl

theorem set_middle {A B : List α} {x w : α} :
    (A ++ x :: B).set A.length w = A ++ w :: B := by
  induction A with
  | nil => rfl
  | cons a rest ih => simp [List.set_cons_succ, ih]

theorem lenRun_pos_lt {runs : List Str} {i : Nat} (h : 0 < lenRun runs i) :
    i < runs.length := by
  by_contra hge
  have hnone : runs[i]? = none := List.getElem?_eq_none (Nat.le_of_not_lt hge)
  simp [lenRun, List.getD_eq_getElem?_getD, hnone] at h

theorem runEnd_mono (runs : List Str) {i j : Nat} (h : i ≤ j) :
    runEnd runs i ≤ runEnd runs j := by
  rw [runEnd_eq_runStart_succ, runEnd_eq_runStart_succ]
  exact runStart_mono runs (by omega)

theorem get?_eq_some_getD {l : List α} {i : Nat} {d : α} (h : i < l.length) :
    l.get? i = some (l.getD i d) := by
  rw [List.get?_eq_getElem?, List.getElem?_eq_getElem h]
  simp [List.getD_eq_getElem?_getD, List.getElem?_eq_getElem h]

/-- Common Inv-preservation argument: after a splice for a match starting at
`s` inside run `fi`, runs before `fi` are untouched and run `fi` keeps its
prefix up to the match start, so the invariant holds at the new boundary. -/
theorem Inv_update {orig cur cur' : List Str} {b s fi fo : Nat}
    (hInv : Inv orig cur b) (hsb : s ≤ b)
    (hlen' : cur'.length = cur.length)
    (hfo : fo < lenRun orig fi) (hs : s = runStart orig fi + fo)
    (hbelow : ∀ i, i < fi → cur'.getD i [] = cur.getD i [])
    (hfi : (cur'.getD fi []).take fo = (cur.getD fi []).take fo) :
    Inv orig cur' s := by
  obtain ⟨hlen, hpris, hpref⟩ := hInv
  have hEndFi : s < runEnd orig fi := by
    unfold runEnd
    omega
  refine ⟨hlen' ▸ hlen, ?_, ?_⟩
  · intro i hi
    have hifi : i < fi := by
      by_contra hge
      have := runEnd_mono orig (Nat.le_of_not_lt hge)
      omega
    rw [hbelow i hifi]
    exact hpris i (le_trans hi hsb)
  · intro i hrsi
    rcases Nat.lt_trichotomy i fi with hlt | heq | hgt
    · rw [hbelow i hlt]
      exact take_congr_of_take_eq (hpref i (le_trans hrsi hsb)) (by omega)
    · subst heq
      have hsfo : s - runStart orig i = fo := by omega
      rw [hsfo, hfi]
      exact take_congr_of_take_eq (hpref i (le_trans hrsi hsb)) (by omega)
    · exfalso
      have h1 : runEnd orig fi ≤ runStart orig i := runEnd_le_runStart hgt
      omega

end ClientCloak

namespace ClientCloak

/-- Take of the spliced run value up to the match start recovers the run's
old prefix. -/
theorem take_fo_of_splice {x y : Str} {fo : Nat} (h : fo ≤ x.length) :
    (x.take fo ++ y).take fo = x.take fo :=
  take_append_of_length y (by rw [List.length_take]; omega)

/-- Span-1 splice: the whole match lies in run `fi`. -/
theorem splice_case_single {orig cur : List Str} {b s e : Nat} {R v : Str}
    (hInv : Inv orig cur b) (hjoin : cur.flatten = orig.flatten.take b ++ R)
    {fi fo lo : Nat}
    (hfo : fo < lenRun orig fi) (hs : s = runStart orig fi + fo)
    (hlo : lo < lenRun orig fi) (he : e - 1 = runStart orig fi + lo)
    (hse : s < e) (heb : e ≤ b) :
    ∃ cur', splice_single_run cur fi fo (e - s) v = .ok cur'
      ∧ cur'.flatten = orig.flatten.take s ++ v ++ seg orig.flatten e b ++ R
      ∧ Inv orig cur' s := by
  have hfiL : fi < orig.length := lenRun_pos_lt (by omega)
  have hfiC : fi < cur.length := by rw [hInv.1]; exact hfiL
  have hget : cur.get? fi = some (cur.getD fi []) := get?_eq_some_getD hfiC
  have hlo1 : fo + (e - s) = lo + 1 := by omega
  have he' : e = runStart orig fi + (lo + 1) := by omega
  have ss1 := state_split hInv hjoin hs (Nat.le_of_lt hfo) (by omega) hfiL
  have ss2 := state_split hInv hjoin he' (by omega) heb hfiL
  have hsplit : orig.flatten.take s =
      orig.flatten.take (runStart orig fi) ++ (orig.getD fi []).take fo := by
    rw [hs, flat_take_in_run _ (Nat.le_of_lt hfo), flatten_take_runStart]
  refine ⟨_, by unfold splice_single_run; rw [hget], ?_, ?_⟩
  · calc (cur.set fi ((cur.getD fi []).take fo ++ v ++
          (cur.getD fi []).drop (fo + (e - s)))).flatten
        = (cur.take fi).flatten ++ ((cur.getD fi []).take fo ++ v ++
            (cur.getD fi []).drop (fo + (e - s))) ++ (cur.drop (fi + 1)).flatten :=
          flatten_set hfiC
      _ = orig.flatten.take (runStart orig fi) ++ ((orig.getD fi []).take fo ++
            (v ++ ((cur.getD fi []).drop (lo + 1) ++ (cur.drop (fi + 1)).flatten))) := by
          rw [ss1.1, ss1.2.1, hlo1]
          simp [List.append_assoc]
      _ = orig.flatten.take (runStart orig fi) ++ ((orig.getD fi []).take fo ++
            (v ++ (seg orig.flatten e b ++ R))) := by
          rw [ss2.2.2.2]
      _ = orig.flatten.take s ++ v ++ seg orig.flatten e b ++ R := by
          rw [hsplit]
          simp [List.append_assoc]
  · refine Inv_update hInv (by omega) (List.length_set _ _ _) hfo hs ?_ ?_
    · intro i hi
      exact getD_set_ne (by omega)
    · rw [getD_set_self hfiC, List.append_assoc]
      exact take_fo_of_splice ss1.2.2.1

end ClientCloak

namespace ClientCloak

theorem getD_eq_getElem {l : List α} {i : Nat} {d : α} (h : i < l.length) :
    l.getD i d = l[i] := by
  simp [List.getD_eq_getElem?_getD, List.getElem?_eq_getElem h]

theorem getD_append_cons {A B : List α} {x d : α} :
    (A ++ x :: B).getD A.length d = x := by
  induction A with
  | nil => rfl
  | cons a rest ih => simpa using ih

theorem getD_take {l : List α} {i j : Nat} {d : α} (h : i < j) :
    (l.take j).getD i d = l.getD i d := by
  simp [List.getD_eq_getElem?_getD, List.getElem?_take_of_lt h]

theorem drop_append_cons {A B : List α} {x : α} :
    (A ++ x :: B).drop (A.length + 1) = B := by
  induction A with
  | nil => rfl
  | cons a rest ih =>
    show (rest ++ x :: B).drop (rest.length + 1) = B
    exact ih

theorem getD_append_cons_of_length {A B : List α} {x d : α} {n : Nat}
    (h : A.length = n) : (A ++ x :: B).getD n d = x := by
  subst h
  exact getD_append_cons

/-- Span-2 splice: the match starts in run `fi` and ends in run `li = fi+1`. -/
theorem splice_case_two {orig cur : List Str} {b s e : Nat} {R v : Str}
    (hInv : Inv orig cur b) (hjoin : cur.flatten = orig.flatten.take b ++ R)
    {fi fo li lo : Nat}
    (hfo : fo < lenRun orig fi) (hs : s = runStart orig fi + fo)
    (hlo : lo < lenRun orig li) (he : e - 1 = runStart orig li + lo)
    (hfl : li = fi + 1) (hse : s < e) (heb : e ≤ b) :
    ∃ cur', splice_two_runs cur fi li fo lo v = .ok cur'
      ∧ cur'.flatten = orig.flatten.take s ++ v ++ seg orig.flatten e b ++ R
      ∧ Inv orig cur' s := by
  have hfiL : fi < orig.length := lenRun_pos_lt (by omega)
  have hliL : li < orig.length := lenRun_pos_lt (by omega)
  have hfiC : fi < cur.length := by rw [hInv.1]; exact hfiL
  have hliC : li < cur.length := by rw [hInv.1]; exact hliL
  have hgetf : cur.get? fi = some (cur.getD fi []) := get?_eq_some_getD hfiC
  have hgetl : cur.get? li = some (cur.getD li []) := get?_eq_some_getD hliC
  have he' : e = runStart orig li + (lo + 1) := by omega
  have hsb : s ≤ b := by omega
  have ss1 := state_split hInv hjoin hs (Nat.le_of_lt hfo) hsb hfiL
  have ss2 := state_split hInv hjoin he' (by omega) heb hliL
  have hsplit : orig.flatten.take s =
      orig.flatten.take (runStart orig fi) ++ (orig.getD fi []).take fo := by
    rw [hs, flat_take_in_run _ (Nat.le_of_lt hfo), flatten_take_runStart]
  have hliC1 : li < (cur.set fi ((cur.getD fi []).take fo ++ v)).length := by
    rw [List.length_set]; exact hliC
  have hdrop1 : (cur.set fi ((cur.getD fi []).take fo ++ v)).drop (li + 1) =
      cur.drop (li + 1) := by
    rw [List.drop_set]
    simp only [if_pos (show fi < li + 1 by omega)]
  have htake1 : (cur.set fi ((cur.getD fi []).take fo ++ v)).take li =
      cur.take fi ++ [(cur.getD fi []).take fo ++ v] := by
    rw [hfl]
    exact set_take_succ hfiC
  refine ⟨_, by unfold splice_two_runs; rw [hgetf, hgetl], ?_, ?_⟩
  · calc ((cur.set fi ((cur.getD fi []).take fo ++ v)).set li
          ((cur.getD li []).drop (lo + 1))).flatten
        = ((cur.set fi ((cur.getD fi []).take fo ++ v)).take li).flatten ++
            ((cur.getD li []).drop (lo + 1)) ++
            ((cur.set fi ((cur.getD fi []).take fo ++ v)).drop (li + 1)).flatten :=
          flatten_set hliC1
      _ = (cur.take fi).flatten ++ ((cur.getD fi []).take fo ++
            (v ++ ((cur.getD li []).drop (lo + 1) ++ (cur.drop (li + 1)).flatten))) := by
          rw [htake1, hdrop1]
          simp [List.append_assoc]
      _ = orig.flatten.take (runStart orig fi) ++ ((orig.getD fi []).take fo ++
            (v ++ (seg orig.flatten e b ++ R))) := by
          rw [ss1.1, ss1.2.1, ss2.2.2.2]
      _ = orig.flatten.take s ++ v ++ seg orig.flatten e b ++ R := by
          rw [hsplit]
          simp [List.append_assoc]
  · refine Inv_update hInv hsb (by rw [List.length_set, List.length_set]) hfo hs ?_ ?_
    · intro i hi
      rw [getD_set_ne (by omega), getD_set_ne (by omega)]
    · rw [getD_set_ne (by omega), getD_set_self hfiC]
      exact take_fo_of_splice ss1.2.2.1

/-- Span-3-or-more splice: replacement into `fi`, middles cleared, `li` trimmed. -/
theorem splice_case_multi {orig cur : List Str} {b s e : Nat} {R v : Str}
    (hInv : Inv orig cur b) (hjoin : cur.flatten = orig.flatten.take b ++ R)
    {fi fo li lo : Nat}
    (hfo : fo < lenRun orig fi) (hs : s = runStart orig fi + fo)
    (hlo : lo < lenRun orig li) (he : e - 1 = runStart orig li + lo)
    (hfl : fi + 1 < li) (hse : s < e) (heb : e ≤ b) :
    ∃ cur', splice_multi_runs cur fi li fo lo v = .ok cur'
      ∧ cur'.flatten = orig.flatten.take s ++ v ++ seg orig.flatten e b ++ R
      ∧ Inv orig cur' s := by
  have hfiL : fi < orig.length := lenRun_pos_lt (by omega)
  have hliL : li < orig.length := lenRun_pos_lt (by omega)
  have hfiC : fi < cur.length := by rw [hInv.1]; exact hfiL
  have hliC : li < cur.length := by rw [hInv.1]; exact hliL
  have hgetf : cur.get? fi = some (cur.getD fi []) := get?_eq_some_getD hfiC
  have hgetl : cur.get? li = some (cur.getD li []) := get?_eq_some_getD hliC
  have he' : e = runStart orig li + (lo + 1) := by omega
  have hsb : s ≤ b := by omega
  have ss1 := state_split hInv hjoin hs (Nat.le_of_lt hfo) hsb hfiL
  have ss2 := state_split hInv hjoin he' (by omega) heb hliL
  have hsplit : orig.flatten.take s =
      orig.flatten.take (runStart orig fi) ++ (orig.getD fi []).take fo := by
    rw [hs, flat_take_in_run _ (Nat.le_of_lt hfo), flatten_take_runStart]
  have hcur2 : clearMids (cur.set fi ((cur.getD fi []).take fo ++ v)) (fi + 1) li =
      (cur.take fi ++ ((cur.getD fi []).take fo ++ v) :: List.replicate (li - (fi + 1)) []) ++
        (cur.getD li [] :: cur.drop (li + 1)) := by
    rw [clearMids_eq (by omega) (by rw [List.length_set]; omega)]
    rw [set_take_succ hfiC]
    have hd1 : (cur.set fi ((cur.getD fi []).take fo ++ v)).drop li = cur.drop li := by
      rw [List.drop_set]
      simp only [if_pos (show fi < li by omega)]
    rw [hd1, getD_eq_getElem hliC, List.drop_eq_getElem_cons hliC]
    simp [List.append_assoc]
  have hlenA : (cur.take fi ++ ((cur.getD fi []).take fo ++ v) ::
      List.replicate (li - (fi + 1)) []).length = li := by
    simp [List.length_take]
    omega
  have h2len : li < (clearMids (cur.set fi ((cur.getD fi []).take fo ++ v)) (fi + 1) li).length := by
    rw [length_clearMids, List.length_set]
    exact hliC
  have htakeli : (clearMids (cur.set fi ((cur.getD fi []).take fo ++ v)) (fi + 1) li).take li =
      cur.take fi ++ ((cur.getD fi []).take fo ++ v) :: List.replicate (li - (fi + 1)) [] := by
    rw [hcur2]
    exact take_append_of_length _ hlenA
  have hdropli : (clearMids (cur.set fi ((cur.getD fi []).take fo ++ v)) (fi + 1) li).drop (li + 1) =
      cur.drop (li + 1) := by
    rw [hcur2]
    have hdc := drop_append_cons
      (A := cur.take fi ++ ((cur.getD fi []).take fo ++ v) :: List.replicate (li - (fi + 1)) [])
      (B := cur.drop (li + 1)) (x := cur.getD li [])
    rw [hlenA] at hdc
    exact hdc
  have hshape : (clearMids (cur.set fi ((cur.getD fi []).take fo ++ v)) (fi + 1) li).set li
        ((cur.getD li []).drop (lo + 1)) =
      (cur.take fi ++ ((cur.getD fi []).take fo ++ v) :: List.replicate (li - (fi + 1)) []) ++
        ((cur.getD li []).drop (lo + 1)) :: cur.drop (li + 1) := by
    rw [List.set_eq_take_cons_drop _ h2len, htakeli, hdropli]
  refine ⟨_, by unfold splice_multi_runs; rw [hgetf, hgetl], ?_, ?_⟩
  · rw [hshape]
    calc ((cur.take fi ++ ((cur.getD fi []).take fo ++ v) ::
          List.replicate (li - (fi + 1)) []) ++
            ((cur.getD li []).drop (lo + 1)) :: cur.drop (li + 1)).flatten
        = (cur.take fi).flatten ++ ((cur.getD fi []).take fo ++
            (v ++ ((cur.getD li []).drop (lo + 1) ++ (cur.drop (li + 1)).flatten))) := by
          simp [List.append_assoc, flatten_replicate_nil]
      _ = orig.flatten.take (runStart orig fi) ++ ((orig.getD fi []).take fo ++
            (v ++ (seg orig.flatten e b ++ R))) := by
          rw [ss1.1, ss1.2.1, ss2.2.2.2]
      _ = orig.flatten.take s ++ v ++ seg orig.flatten e b ++ R := by
          rw [hsplit]
          simp [List.append_assoc]
  · rw [hshape]
    have hlen' : ((cur.take fi ++ ((cur.getD fi []).take fo ++ v) ::
        List.replicate (li - (fi + 1)) []) ++
          ((cur.getD li []).drop (lo + 1)) :: cur.drop (li + 1)).length = cur.length := by
      simp [List.length_take]
      omega
    refine Inv_update hInv hsb hlen' hfo hs ?_ ?_
    · intro i hi
      have hiA : i < (cur.take fi ++ ((cur.getD fi []).take fo ++ v) ::
          List.replicate (li - (fi + 1)) []).length := by
        rw [hlenA]
        omega
      rw [getD_append_left hiA]
      have hiT : i < (cur.take fi).length := by
        rw [List.length_take_of_le (Nat.le_of_lt hfiC)]
        exact hi
      rw [getD_append_left hiT, getD_take hi]
    · have hiA : fi < (cur.take fi ++ ((cur.getD fi []).take fo ++ v) ::
          List.replicate (li - (fi + 1)) []).length := by
        rw [hlenA]
        omega
      rw [getD_append_left hiA,
        getD_append_cons_of_length (List.length_take_of_le (Nat.le_of_lt hfiC))]
      exact take_fo_of_splice ss1.2.2.1
end ClientCloak

namespace ClientCloak

/-- One right-to-left splice step: under the loop invariant, `processMatch`
succeeds, rewrites exactly the flat range `[s, e)` to the cased replacement,
and re-establishes the invariant at the match start. -/
theorem processMatch_step {orig cur : List Str} {b s e : Nat} {m tpl R : Str}
    {lk : List (Str × Str)} {mc : Bool}
    (hInv : Inv orig cur b) (hjoin : cur.flatten = orig.flatten.take b ++ R)
    (hse : s < e) (heb : e ≤ b) (hble : b ≤ orig.flatten.length)
    (hlk : lookupTpl lk (py_lower m) = some tpl) :
    ∃ cur', processMatch (build_char_map orig) lk mc cur (s, e, m) = .ok cur'
      ∧ cur'.flatten =
          orig.flatten.take s ++ apply_case mc m tpl ++ seg orig.flatten e b ++ R
      ∧ Inv orig cur' s := by
  have hsl : s < orig.flatten.length := by omega
  obtain ⟨fi, fo, hcmS⟩ := charMap_exists orig hsl
  obtain ⟨hfo, hsE⟩ := (charMap_get orig s fi fo).mp hcmS
  have hel : e - 1 < orig.flatten.length := by omega
  obtain ⟨li, lo, hcmE⟩ := charMap_exists orig hel
  obtain ⟨hlo, heE⟩ := (charMap_get orig (e - 1) li lo).mp hcmE
  have hfl : fi ≤ li := run_order hfo hlo (by omega)
  have hS : py_get (build_char_map orig) ((s : Nat) : Int) = .ok (fi, fo) := by
    rw [py_get_nat, hcmS]
  have hE : py_get (build_char_map orig) ((e : Int) - 1) = .ok (li, lo) := by
    rw [py_get_pred _ (by omega), py_get_nat, hcmE]
  have hred : processMatch (build_char_map orig) lk mc cur (s, e, m) =
      (if li - fi + 1 = 1 then
        splice_single_run cur fi fo (e - s) (apply_case mc m tpl)
      else if li - fi + 1 = 2 then
        splice_two_runs cur fi li fo lo (apply_case mc m tpl)
      else
        splice_multi_runs cur fi li fo lo (apply_case mc m tpl)) := by
    simp only [processMatch]
    rw [hlk, hS, hE]
    rfl
  rcases Nat.lt_trichotomy li (fi + 1) with hcase | hcase | hcase
  · -- span 1: li = fi
    have hfieq : li = fi := by omega
    subst hfieq
    have hone : li - li + 1 = 1 := by omega
    rw [hone] at hred
    simp only [if_pos rfl] at hred
    obtain ⟨cur', hok, hflat, hInv'⟩ :=
      splice_case_single (v := apply_case mc m tpl) hInv hjoin hfo hsE hlo heE hse heb
    exact ⟨cur', hred.trans hok, hflat, hInv'⟩
  · -- span 2: li = fi + 1
    have htwo : li - fi + 1 = 2 := by omega
    rw [htwo] at hred
    simp only [if_neg (by omega : ¬ (2 : Nat) = 1), if_pos rfl] at hred
    obtain ⟨cur', hok, hflat, hInv'⟩ :=
      splice_case_two (v := apply_case mc m tpl) hInv hjoin hfo hsE hlo heE
        (by omega) hse heb
    exact ⟨cur', hred.trans hok, hflat, hInv'⟩
  · -- span ≥ 3
    have hge : li - fi + 1 ≠ 1 ∧ li - fi + 1 ≠ 2 := by omega
    rw [if_neg (by omega : ¬ li - fi + 1 = 1), if_neg (by omega : ¬ li - fi + 1 = 2)]
      at hred
    obtain ⟨cur', hok, hflat, hInv'⟩ :=
      splice_case_multi (v := apply_case mc m tpl) hInv hjoin hfo hsE hlo heE
        hcase hse heb
    exact ⟨cur', hred.trans hok, hflat, hInv'⟩

end ClientCloak

namespace ClientCloak

/-- The splicing loop over a well-formed match list (processed right to
left): it succeeds, and the runs' concatenation becomes the text with every
match range rewritten, exactly the `pattern.sub`-style output described by
`subChunk`. -/
theorem fold_splice {orig : List Str} {lk : List (Str × Str)} {mc : Bool} :
    ∀ (ms : List (Nat × Nat × Str)) (lo0 b : Nat) (cur : List Str) (R : Str),
      ChainMatches orig.flatten lo0 ms →
      (∀ x ∈ ms, x.2.1 ≤ b) →
      (∀ x ∈ ms, ∃ t, lookupTpl lk (py_lower x.2.2) = some t) →
      b ≤ orig.flatten.length →
      Inv orig cur b →
      cur.flatten = orig.flatten.take b ++ R →
      ∃ cur' T,
        ms.reverse.foldlM (processMatch (build_char_map orig) lk mc) cur = .ok cur'
        ∧ subChunk lk mc orig.flatten b ms = some T
        ∧ cur'.flatten = orig.flatten.take (headStart ms b) ++ T ++ R
        ∧ Inv orig cur' (headStart ms b)
  | [], lo0, b, cur, R, _, _, _, _, hInv, hjoin =>
    ⟨cur, [], rfl, rfl, by simpa using hjoin, hInv⟩
  | (s, e, m) :: rest, lo0, b, cur, R, hch, hends, hlks, hble, hInv, hjoin => by
    obtain ⟨hlos, hse, helen, hmse, hchrest⟩ := hch
    have heb : e ≤ b := hends (s, e, m) (List.mem_cons_self _ _)
    obtain ⟨cur1, T1, hfold1, hsub1, hflat1, hInv1⟩ :=
      fold_splice rest e b cur R hchrest
        (fun x hx => hends x (List.mem_cons_of_mem _ hx))
        (fun x hx => hlks x (List.mem_cons_of_mem _ hx)) hble hInv hjoin
    have heb1 : e ≤ headStart rest b := by
      cases rest with
      | nil => exact heb
      | cons y ys =>
        obtain ⟨hey, _⟩ := hchrest
        exact hey
    have hb1le : headStart rest b ≤ orig.flatten.length := by
      cases rest with
      | nil => exact hble
      | cons y ys =>
        obtain ⟨_, hy2, hy3, _⟩ := hchrest
        simp only [headStart]
        omega
    obtain ⟨tpl, hlk0⟩ := hlks (s, e, m) (List.mem_cons_self _ _)
    have hlk1 : lookupTpl lk (py_lower m) = some tpl := hlk0
    obtain ⟨cur', hstep, hflat', hInv'⟩ :=
      @processMatch_step orig cur1 (headStart rest b) s e m tpl (T1 ++ R) lk mc
        hInv1 (by rw [hflat1, List.append_assoc]) hse heb1 hb1le hlk1
    refine ⟨cur', apply_case mc m tpl ++ seg orig.flatten e (headStart rest b) ++ T1,
      ?_, ?_, ?_, ?_⟩
    · rw [List.reverse_cons, List.foldlM_append, hfold1]
      show (do
        let init ← processMatch (build_char_map orig) lk mc cur1 (s, e, m)
        pure init : Except PyErr (List Str)) = Except.ok cur'
      rw [hstep]
      rfl
    · simp only [subChunk, hlk1, hsub1, Option.bind_some]
      rfl
    · rw [hflat']
      simp only [headStart]
      simp [List.append_assoc]
    · exact hInv'

end ClientCloak

namespace ClientCloak

/-! ## Except plumbing and error analysis -/

theorem bind_eq_ok {x : Except PyErr α} {f : α → Except PyErr β} {b : β} :
    x >>= f = .ok b ↔ ∃ a, x = .ok a ∧ f a = .ok b := by
  cases x <;> simp [Bind.bind, Except.bind]

theorem bind_eq_error {x : Except PyErr α} {f : α → Except PyErr β} {e : PyErr} :
    x >>= f = .error e ↔ x = .error e ∨ ∃ a, x = .ok a ∧ f a = .error e := by
  cases x <;> simp [Bind.bind, Except.bind]

theorem splice_single_run_cases {runs : List Str} {i o l : Nat} {nt : Str} :
    (∃ r', splice_single_run runs i o l nt = .ok r' ∧ r'.length = runs.length)
    ∨ splice_single_run runs i o l nt = .error .indexError := by
  unfold splice_single_run
  cases hg : runs.get? i with
  | none => exact Or.inr rfl
  | some t => exact Or.inl ⟨_, rfl, List.length_set _ _ _⟩

theorem splice_two_runs_cases {runs : List Str} {fi li fo lo : Nat} {nt : Str} :
    (∃ r', splice_two_runs runs fi li fo lo nt = .ok r' ∧ r'.length = runs.length)
    ∨ splice_two_runs runs fi li fo lo nt = .error .indexError := by
  unfold splice_two_runs
  cases hf : runs.get? fi with
  | none => exact Or.inr rfl
  | some f =>
    cases hl : runs.get? li with
    | none => exact Or.inr rfl
    | some l => exact Or.inl ⟨_, rfl, by rw [List.length_set, List.length_set]⟩

theorem splice_multi_runs_cases {runs : List Str} {fi li fo lo : Nat} {nt : Str} :
    (∃ r', splice_multi_runs runs fi li fo lo nt = .ok r' ∧ r'.length = runs.length)
    ∨ splice_multi_runs runs fi li fo lo nt = .error .indexError := by
  unfold splice_multi_runs
  cases hf : runs.get? fi with
  | none => exact Or.inr rfl
  | some f =>
    cases hl : runs.get? li with
    | none => exact Or.inr rfl
    | some l =>
      refine Or.inl ⟨_, rfl, ?_⟩
      rw [List.length_set, length_clearMids, List.length_set]

theorem py_get_cases (l : List α) (i : Int) :
    (∃ a, py_get l i = .ok a) ∨ py_get l i = .error .indexError := by
  unfold py_get
  by_cases h : (if i < 0 then (l.length : Int) + i else i) < 0
  · rw [if_pos h]
    exact Or.inr rfl
  · rw [if_neg h]
    cases hg : l.get? (if i < 0 then (l.length : Int) + i else i).toNat with
    | none => exact Or.inr rfl
    | some a => exact Or.inl ⟨a, rfl⟩

/-- `processMatch` either succeeds preserving the run count, or raises an
`IndexError` or `KeyError` — never the `_FallbackNeeded` signal, which no
code in `_replace_preserving_format` raises. -/
theorem processMatch_cases (cm : List (Nat × Nat)) (lk : List (Str × Str))
    (mc : Bool) (runs : List Str) (m : Nat × Nat × Str) :
    (∃ r', processMatch cm lk mc runs m = .ok r' ∧ r'.length = runs.length)
    ∨ processMatch cm lk mc runs m = .error .indexError
    ∨ processMatch cm lk mc runs m = .error .keyError := by
  obtain ⟨s, e, mt⟩ := m
  cases hl : lookupTpl lk (py_lower mt) with
  | none =>
    right; right
    simp only [processMatch]
    rw [hl]
    rfl
  | some tpl =>
    rcases py_get_cases cm ((s : Nat) : Int) with ⟨⟨fi, fo⟩, hS⟩ | hS
    · rcases py_get_cases cm ((e : Int) - 1) with ⟨⟨li, lo⟩, hE⟩ | hE
      · have hred : processMatch cm lk mc runs (s, e, mt) =
            (if li - fi + 1 = 1 then
              splice_single_run runs fi fo (e - s) (apply_case mc mt tpl)
            else if li - fi + 1 = 2 then
              splice_two_runs runs fi li fo lo (apply_case mc mt tpl)
            else
              splice_multi_runs runs fi li fo lo (apply_case mc mt tpl)) := by
          simp only [processMatch]
          rw [hl, hS, hE]
          rfl
        rw [hred]
        by_cases h1 : li - fi + 1 = 1
        · rw [if_pos h1]
          rcases @splice_single_run_cases runs fi fo (e - s)
              (apply_case mc mt tpl) with ⟨r', hok, hlen⟩ | herr
          · exact Or.inl ⟨r', hok, hlen⟩
          · exact Or.inr (Or.inl herr)
        · rw [if_neg h1]
          by_cases h2 : li - fi + 1 = 2
          · rw [if_pos h2]
            rcases @splice_two_runs_cases runs fi li fo lo
                (apply_case mc mt tpl) with
              ⟨r', hok, hlen⟩ | herr
            · exact Or.inl ⟨r', hok, hlen⟩
            · exact Or.inr (Or.inl herr)
          · rw [if_neg h2]
            rcases @splice_multi_runs_cases runs fi li fo lo
                (apply_case mc mt tpl) with
              ⟨r', hok, hlen⟩ | herr
            · exact Or.inl ⟨r', hok, hlen⟩
            · exact Or.inr (Or.inl herr)
      · right; left
        simp only [processMatch]
        rw [hl, hS, hE]
        rfl
    · right; left
      simp only [processMatch]
      rw [hl, hS]
      rfl

end ClientCloak

namespace ClientCloak

/-- The whole right-to-left loop: success preserves the run count, and the
only reachable errors are `IndexError`/`KeyError`. -/
theorem foldlM_processMatch_cases (cm : List (Nat × Nat)) (lk : List (Str × Str))
    (mc : Bool) :
    ∀ (l : List (Nat × Nat × Str)) (runs : List Str),
      (∃ r', l.foldlM (processMatch cm lk mc) runs = .ok r' ∧ r'.length = runs.length)
      ∨ l.foldlM (processMatch cm lk mc) runs = .error .indexError
      ∨ l.foldlM (processMatch cm lk mc) runs = .error .keyError
  | [], runs => Or.inl ⟨runs, rfl, rfl⟩
  | x :: xs, runs => by
    rw [List.foldlM_cons]
    rcases processMatch_cases cm lk mc runs x with ⟨r1, hok, hlen1⟩ | herr | herr
    · rw [hok]
      have hbind : (Except.ok r1 >>= fun b => xs.foldlM (processMatch cm lk mc) b) =
          xs.foldlM (processMatch cm lk mc) r1 := rfl
      rw [hbind]
      rcases foldlM_processMatch_cases cm lk mc xs r1 with ⟨r2, hok2, hlen2⟩ | herr2 | herr2
      · exact Or.inl ⟨r2, hok2, by omega⟩
      · exact Or.inr (Or.inl herr2)
      · exact Or.inr (Or.inr herr2)
    · rw [herr]
      exact Or.inr (Or.inl rfl)
    · rw [herr]
      exact Or.inr (Or.inr rfl)

/-- `_replace_preserving_format` never raises `_FallbackNeeded` (no code in
it does), and whenever it succeeds the number of runs is preserved and the
returned count is the matcher's match count on the flattened text. -/
theorem replace_preserving_format_cases (runs : List Str) (fullText : Str)
    (cm : List (Nat × Nat)) (ts : List Str) (lk : List (Str × Str)) (mc : Bool) :
    (∃ r', replace_preserving_format runs fullText cm ts lk mc = .ok r'
      ∧ r'.1.length = runs.length ∧ r'.2 = (finditer ts fullText).length)
    ∨ replace_preserving_format runs fullText cm ts lk mc = .error .indexError
    ∨ replace_preserving_format runs fullText cm ts lk mc = .error .keyError := by
  unfold replace_preserving_format
  by_cases hemp : (finditer ts fullText).isEmpty
  · rw [if_pos hemp]
    refine Or.inl ⟨(runs, 0), rfl, rfl, ?_⟩
    rw [List.isEmpty_iff] at hemp
    simp [hemp]
  · rw [if_neg hemp]
    rcases foldlM_processMatch_cases cm lk mc (finditer ts fullText).reverse runs with
      ⟨r', hok, hlen⟩ | herr | herr
    · rw [hok]
      exact Or.inl ⟨(r', (finditer ts fullText).length), rfl, hlen, rfl⟩
    · rw [herr]
      exact Or.inr (Or.inl rfl)
    · rw [herr]
      exact Or.inr (Or.inr rfl)

theorem replace_preserving_format_no_fallback (runs : List Str) (fullText : Str)
    (cm : List (Nat × Nat)) (ts : List Str) (lk : List (Str × Str)) (mc : Bool) :
    replace_preserving_format runs fullText cm ts lk mc ≠ .error .fallbackNeeded := by
  rcases replace_preserving_format_cases runs fullText cm ts lk mc with
    ⟨r', hok, _⟩ | herr | herr <;> intro hcon
  · rw [hok] at hcon
    cases hcon
  · rw [herr] at hcon
    cases hcon
  · rw [herr] at hcon
    cases hcon

/-- `_replace_in_paragraph` never reaches the run-collapsing fallback: its
result is always the format-preserving splicer's result (or a guard's
no-op), so a successful pass preserves the paragraph's run count. -/
theorem replace_in_paragraph_no_collapse (runs : List Str) (ts : List Str)
    (lk : List (Str × Str)) (mc : Bool) {runs' : List Str} {n : Nat}
    (h : replace_in_paragraph runs ts lk mc = .ok (runs', n)) :
    runs'.length = runs.length := by
  unfold replace_in_paragraph at h
  by_cases h1 : runs.isEmpty
  · rw [if_pos h1] at h
    cases h
    rfl
  · rw [if_neg h1] at h
    by_cases h2 : runs.flatten.isEmpty
    · rw [if_pos h2] at h
      cases h
      rfl
    · rw [if_neg h2] at h
      by_cases h3 : (finditer ts runs.flatten).isEmpty
      · rw [if_pos h3] at h
        cases h
        rfl
      · rw [if_neg h3] at h
        rcases replace_preserving_format_cases runs runs.flatten (build_char_map runs)
            ts lk mc with ⟨r', hok, hlen, _⟩ | herr | herr
        · rw [hok] at h
          cases h
          exact hlen
        · rw [herr] at h
          cases h
        · rw [herr] at h
          cases h

end ClientCloak

namespace ClientCloak

/-! ## Scanner well-formedness -/

theorem finditerGo_congr (ts : List Str) (text : Str) :
    ∀ (f1 : Nat) (f2 pos : Nat), text.length + 1 - pos ≤ f1 →
      text.length + 1 - pos ≤ f2 →
      finditerGo ts text pos f1 = finditerGo ts text pos f2
  | 0, f2, pos, h1, h2 => by
    have hpos : text.length < pos := by omega
    cases f2 with
    | zero => rfl
    | succ k => simp [finditerGo, hpos]
  | f1 + 1, f2, pos, h1, h2 => by
    cases f2 with
    | zero =>
      have hpos : text.length < pos := by omega
      simp [finditerGo, hpos]
    | succ k =>
      simp only [finditerGo]
      by_cases hpos : text.length < pos
      · rw [if_pos hpos, if_pos hpos]
      · rw [if_neg hpos, if_neg hpos]
        cases htry : tryAlts ts text pos with
        | none =>
          show finditerGo ts text (pos + 1) f1 = finditerGo ts text (pos + 1) k
          exact finditerGo_congr ts text f1 k (pos + 1) (by omega) (by omega)
        | some m =>
          show (pos, pos + m.length, m) :: finditerGo ts text (pos + max m.length 1) f1
            = (pos, pos + m.length, m) :: finditerGo ts text (pos + max m.length 1) k
          have hmax : 1 ≤ max m.length 1 := Nat.le_max_right _ _
          rw [finditerGo_congr ts text f1 k (pos + max m.length 1)
            (by omega) (by omega)]

theorem finditerFrom_unfold (ts : List Str) (text : Str) (pos : Nat) :
    finditerFrom ts text pos =
      if text.length < pos then []
      else
        match tryAlts ts text pos with
        | some m => (pos, pos + m.length, m) :: finditerFrom ts text (pos + max m.length 1)
        | none => finditerFrom ts text (pos + 1) := by
  unfold finditerFrom
  by_cases hpos : text.length < pos
  · have h0 : text.length + 1 - pos = 0 := by omega
    rw [h0, if_pos hpos]
    rfl
  · have h1 : text.length + 1 - pos = (text.length - pos) + 1 := by omega
    rw [h1, if_neg hpos]
    simp only [finditerGo, if_neg hpos]
    cases htry : tryAlts ts text pos with
    | none =>
      show finditerGo ts text (pos + 1) (text.length - pos) = finditerFrom ts text (pos + 1)
      unfold finditerFrom
      exact finditerGo_congr ts text (text.length - pos) (text.length + 1 - (pos + 1))
        (pos + 1) (by omega) (by omega)
    | some m =>
      show (pos, pos + m.length, m) :: finditerGo ts text (pos + max m.length 1)
          (text.length - pos)
        = (pos, pos + m.length, m) :: finditerFrom ts text (pos + max m.length 1)
      unfold finditerFrom
      have hmax : 1 ≤ max m.length 1 := Nat.le_max_right _ _
      rw [finditerGo_congr ts text (text.length - pos)
        (text.length + 1 - (pos + max m.length 1)) (pos + max m.length 1)
        (by omega) (by omega)]

theorem finditer_eq_from (ts : List Str) (text : Str) :
    finditer ts text = finditerFrom ts text 0 := rfl

theorem tryAlts_some {ts : List Str} {text : Str} {i : Nat} {m : Str}
    (h : tryAlts ts text i = some m) :
    ∃ t ∈ ts, i + t.length ≤ text.length ∧ m = (text.drop i).take t.length
      ∧ m.length = t.length ∧ py_lower m = py_lower t := by
  induction ts with
  | nil => cases h
  | cons t rest ih =>
    unfold tryAlts at h
    by_cases hc : (decide (i + t.length ≤ text.length)
        && (py_lower ((text.drop i).take t.length) == py_lower t)) = true
    · rw [if_pos hc] at h
      have hm : m = (text.drop i).take t.length := (Option.some.inj h).symm
      rw [Bool.and_eq_true, decide_eq_true_eq, beq_iff_eq] at hc
      obtain ⟨hle, heq⟩ := hc
      refine ⟨t, List.mem_cons_self _ _, hle, hm, ?_, by rw [hm]; exact heq⟩
      rw [hm]
      simp [List.length_take, List.length_drop]
      omega
    · rw [if_neg hc] at h
      obtain ⟨t', ht', h1, h2, h3, h4⟩ := ih h
      exact ⟨t', List.mem_cons_of_mem _ ht', h1, h2, h3, h4⟩

theorem ChainMatches_mono {text : Str} {lo lo' : Nat} {ms : List (Nat × Nat × Str)}
    (h : ChainMatches text lo ms) (hle : lo' ≤ lo) : ChainMatches text lo' ms := by
  cases ms with
  | nil => trivial
  | cons x rest =>
    obtain ⟨s, e, m⟩ := x
    obtain ⟨h1, h2⟩ := h
    exact ⟨by omega, h2⟩

theorem finditerFrom_chain {ts : List Str} {text : Str}
    (hne : ∀ t ∈ ts, t ≠ []) :
    ∀ (n pos : Nat), text.length + 1 - pos ≤ n →
      ChainMatches text pos (finditerFrom ts text pos)
  | 0, pos, hn => by
    have hpos : text.length < pos := by omega
    rw [finditerFrom_unfold, if_pos hpos]
    trivial
  | n + 1, pos, hn => by
    rw [finditerFrom_unfold]
    by_cases hpos : text.length < pos
    · rw [if_pos hpos]
      trivial
    · rw [if_neg hpos]
      cases htry : tryAlts ts text pos with
      | none =>
        exact ChainMatches_mono
          (finditerFrom_chain hne n (pos + 1) (by omega)) (by omega)
      | some m =>
        obtain ⟨t, htm, hle, hspan, hlen, hlow⟩ := tryAlts_some htry
        have hpos2 : 0 < t.length := by
          cases t with
          | nil => exact absurd rfl (hne [] htm)
          | cons c cs => simp
        have hmlen : 0 < m.length := by omega
        have hmax : max m.length 1 = m.length := by omega
        refine ⟨Nat.le_refl _, by omega, by omega, ?_, ?_⟩
        · unfold seg
          have h2 : pos + m.length - pos = m.length := by omega
          rw [h2, hlen]
          exact hspan
        · rw [hmax]
          exact finditerFrom_chain hne n (pos + m.length) (by omega)

theorem finditer_chain {ts : List Str} {text : Str} (hne : ∀ t ∈ ts, t ≠ []) :
    ChainMatches text 0 (finditer ts text) := by
  rw [finditer_eq_from]
  exact finditerFrom_chain hne (text.length + 1) 0 (by omega)

theorem finditerFrom_keys {ts : List Str} {text : Str} :
    ∀ (n pos : Nat), text.length + 1 - pos ≤ n →
      ∀ x ∈ finditerFrom ts text pos, ∃ t ∈ ts, py_lower x.2.2 = py_lower t
  | 0, pos, hn => by
    have hpos : text.length < pos := by omega
    rw [finditerFrom_unfold, if_pos hpos]
    intro x hx
    cases hx
  | n + 1, pos, hn => by
    rw [finditerFrom_unfold]
    by_cases hpos : text.length < pos
    · rw [if_pos hpos]
      intro x hx
      cases hx
    · rw [if_neg hpos]
      cases htry : tryAlts ts text pos with
      | none =>
        exact finditerFrom_keys n (pos + 1) (by omega)
      | some m =>
        intro x hx
        rcases List.mem_cons.mp hx with hx1 | hx2
        · obtain ⟨t, htm, _, _, _, hlow⟩ := tryAlts_some htry
          subst hx1
          exact ⟨t, htm, hlow⟩
        · have hmax : 1 ≤ max m.length 1 := Nat.le_max_right _ _
          exact finditerFrom_keys n (pos + max m.length 1) (by omega) x hx2

theorem finditer_keys {ts : List Str} {text : Str} :
    ∀ x ∈ finditer ts text, ∃ t ∈ ts, py_lower x.2.2 = py_lower t := by
  rw [finditer_eq_from]
  exact finditerFrom_keys (text.length + 1) 0 (by omega)

end ClientCloak

namespace ClientCloak

/-! ## Target set and lookup bookkeeping -/

theorem mem_insertByLenDesc {x a : Str} : ∀ {l : List Str},
    (a ∈ insertByLenDesc x l ↔ a = x ∨ a ∈ l)
  | [] => by simp [insertByLenDesc]
  | y :: ys => by
    unfold insertByLenDesc
    by_cases hc : x.length ≤ y.length
    · rw [if_pos hc]
      simp only [List.mem_cons, mem_insertByLenDesc (l := ys)]
      tauto
    · rw [if_neg hc]
      simp only [List.mem_cons]

theorem mem_sortTargets {ks : List Str} {a : Str} :
    a ∈ sortTargets ks ↔ a ∈ ks := by
  have hgen : ∀ (l acc : List Str),
      (a ∈ l.foldl (fun acc k => insertByLenDesc k acc) acc ↔ a ∈ acc ∨ a ∈ l) := by
    intro l
    induction l with
    | nil => simp
    | cons k rest ih =>
      intro acc
      rw [List.foldl_cons, ih, mem_insertByLenDesc]
      simp only [List.mem_cons]
      tauto
  unfold sortTargets
  rw [hgen]
  simp

theorem lookupTpl_isSome_of_key {repl : List (Str × Str)} {key : Str}
    (h : ∃ p ∈ repl, py_lower p.1 = key) : ∃ t, lookupTpl repl key = some t := by
  obtain ⟨p, hp, hkey⟩ := h
  unfold lookupTpl
  cases hf : repl.reverse.find? (fun q => py_lower q.1 == key) with
  | none =>
    exfalso
    have := List.find?_eq_none.mp hf p (List.mem_reverse.mpr hp)
    rw [hkey] at this
    simp at this
  | some q => exact ⟨q.2, rfl⟩

/-- Every scanner match over the compiled targets has a template in the
lookup dictionary (the lookup keys are the lowercased dictionary keys). -/
theorem finditer_lookups {repl : List (Str × Str)} {text : Str} :
    ∀ x ∈ finditer (compileTargets repl) text,
      ∃ t, lookupTpl repl (py_lower x.2.2) = some t := by
  intro x hx
  obtain ⟨t, htmem, hlow⟩ := finditer_keys x hx
  have hkey : t ∈ repl.map (·.1) := mem_sortTargets.mp htmem
  obtain ⟨p, hp, hp1⟩ := List.mem_map.mp hkey
  exact lookupTpl_isSome_of_key ⟨p, hp, by rw [hp1, hlow]⟩

/-! ## `pattern.sub` and `subChunk` agree -/

theorem seg_eq (x : Str) {a b : Nat} (hab : a ≤ b) :
    seg x a b = (x.take b).drop a := by
  unfold seg
  have hba : a + (b - a) = b := by omega
  rw [List.take_drop, hba]

theorem py_sub_aux_eq_subChunk {lk : List (Str × Str)} {mc : Bool} {flat : Str} :
    ∀ (ms : List (Nat × Nat × Str)) (pos : Nat),
      ChainMatches flat pos ms →
      (∀ x ∈ ms, ∃ t, lookupTpl lk (py_lower x.2.2) = some t) →
      ∃ T, subChunk lk mc flat flat.length ms = some T
        ∧ py_sub_aux lk mc flat pos ms =
            .ok ((flat.take (headStart ms flat.length)).drop pos ++ T)
  | [], pos, _, _ => by
    refine ⟨[], rfl, ?_⟩
    simp only [py_sub_aux, headStart, List.take_length, List.append_nil]
  | (s, e, m) :: rest, pos, hch, hlks => by
    obtain ⟨hpos, hse, helen, hmse, hchrest⟩ := hch
    obtain ⟨tpl, hlk0⟩ := hlks (s, e, m) (List.mem_cons_self _ _)
    have hlk1 : lookupTpl lk (py_lower m) = some tpl := hlk0
    obtain ⟨T1, hsub1, hpy1⟩ :=
      @py_sub_aux_eq_subChunk lk mc flat rest e hchrest
        (fun x hx => hlks x (List.mem_cons_of_mem _ hx))
    have heb1 : e ≤ headStart rest flat.length := by
      cases rest with
      | nil => exact helen
      | cons y ys => exact hchrest.1
    refine ⟨apply_case mc m tpl ++ seg flat e (headStart rest flat.length) ++ T1, ?_, ?_⟩
    · simp only [subChunk, hlk1, hsub1, Option.bind_some]
      rfl
    · have hseg : (flat.take (headStart rest flat.length)).drop e =
          seg flat e (headStart rest flat.length) := (seg_eq flat heb1).symm
      have hlist : (flat.take s).drop pos ++ apply_case mc m tpl ++
            ((flat.take (headStart rest flat.length)).drop e ++ T1) =
          (flat.take (headStart ((s, e, m) :: rest) flat.length)).drop pos ++
            (apply_case mc m tpl ++ seg flat e (headStart rest flat.length) ++ T1) := by
        rw [hseg]
        simp only [headStart]
        simp [List.append_assoc]
      calc py_sub_aux lk mc flat pos ((s, e, m) :: rest)
          = Except.ok ((flat.take s).drop pos ++ apply_case mc m tpl ++
              ((flat.take (headStart rest flat.length)).drop e ++ T1)) := by
            simp only [py_sub_aux, hlk1, hpy1]
            rfl
        _ = Except.ok ((flat.take (headStart ((s, e, m) :: rest) flat.length)).drop pos ++
              (apply_case mc m tpl ++ seg flat e (headStart rest flat.length) ++ T1)) := by
            rw [hlist]

end ClientCloak

namespace ClientCloak

theorem chain_ends {text : Str} :
    ∀ {lo : Nat} {ms : List (Nat × Nat × Str)}, ChainMatches text lo ms →
      ∀ x ∈ ms, x.2.1 ≤ text.length
  | _, [], _ => by intro x hx; cases hx
  | lo, (s, e, m) :: rest, hch => by
    obtain ⟨_, _, helen, _, hchrest⟩ := hch
    intro x hx
    rcases List.mem_cons.mp hx with hx1 | hx2
    · subst hx1
      exact helen
    · exact chain_ends hchrest x hx2

theorem compileTargets_ne {repl : List (Str × Str)} (hne : ∀ p ∈ repl, p.1 ≠ []) :
    ∀ t ∈ compileTargets repl, t ≠ [] := by
  intro t ht
  have : t ∈ repl.map (·.1) := mem_sortTargets.mp ht
  obtain ⟨p, hp, hp1⟩ := List.mem_map.mp this
  rw [← hp1]
  exact hne p hp

/-- The format-preserving splicer computes exactly the flat one-pass
substitution output: it succeeds, returns the matcher's match count, keeps
the run count, and its flattened result is `pattern.sub`'s string. -/
theorem preserve_eq_sub {repl : List (Str × Str)} {runs : List Str} {mc : Bool}
    (hne : ∀ p ∈ repl, p.1 ≠ []) :
    ∃ (runs' : List Str) (T : Str),
      replace_preserving_format runs runs.flatten (build_char_map runs)
        (compileTargets repl) repl mc
        = .ok (runs', (finditer (compileTargets repl) runs.flatten).length)
      ∧ py_sub_aux repl mc runs.flatten 0
          (finditer (compileTargets repl) runs.flatten) = .ok T
      ∧ runs'.flatten = T
      ∧ runs'.length = runs.length := by
  have htsne := compileTargets_ne hne
  have hch : ChainMatches runs.flatten 0
      (finditer (compileTargets repl) runs.flatten) := finditer_chain htsne
  have hlks := @finditer_lookups repl runs.flatten
  have hends := chain_ends hch
  obtain ⟨cur', Tf, hfold, hsubC, hflat, hInv'⟩ :=
    @fold_splice runs repl mc (finditer (compileTargets repl) runs.flatten) 0
      runs.flatten.length runs [] hch hends hlks (Nat.le_refl _) (Inv_init _ _)
      (by simp)
  obtain ⟨T2, hsubC2, hpy⟩ :=
    @py_sub_aux_eq_subChunk repl mc runs.flatten
      (finditer (compileTargets repl) runs.flatten) 0 hch hlks
  have hT : Tf = T2 := by
    rw [hsubC] at hsubC2
    exact Option.some.inj hsubC2
  refine ⟨cur', runs.flatten.take
      (headStart (finditer (compileTargets repl) runs.flatten)
        runs.flatten.length) ++ T2, ?_, ?_, ?_, hInv'.1⟩
  · unfold replace_preserving_format
    by_cases hemp : (finditer (compileTargets repl) runs.flatten).isEmpty
    · rw [if_pos hemp]
      rw [List.isEmpty_iff] at hemp
      rw [hemp] at hfold ⊢
      have hcur : cur' = runs := by
        cases hfold
        rfl
      rw [hcur]
      simp only [List.length_nil]
      rfl
    · rw [if_neg hemp, hfold]
      rfl
  · rw [hpy]
    simp
  · rw [hflat, hT]
    simp

end ClientCloak

namespace ClientCloak

/-- Claim C2: for every paragraph run list and compiled replacement pattern
(with the spec's non-empty originals), the format-preserving right-to-left
splicer leaves the concatenation of the runs' texts equal to the result of
the single left-to-right regex substitution over the original flattened text
used by `_replace_collapsing_runs` (same case transfer and placeholder
handling), and both report the matcher's match count on the flattened text. -/
theorem claim_C2 (repl : List (Str × Str)) (runs : List Str) (mc : Bool)
    (hne : ∀ p ∈ repl, p.1 ≠ []) :
    ∃ out1 out2,
      replace_preserving_format runs runs.flatten (build_char_map runs)
        (compileTargets repl) repl mc = .ok out1
      ∧ replace_collapsing_runs runs runs.flatten (compileTargets repl) repl mc = .ok out2
      ∧ out1.1.flatten = out2.1.flatten
      ∧ out1.2 = out2.2
      ∧ out1.2 = (finditer (compileTargets repl) runs.flatten).length := by
  obtain ⟨runs', T, hpf, hpy, hflat, hlen⟩ := @preserve_eq_sub repl runs mc hne
  by_cases hemp : (finditer (compileTargets repl) runs.flatten).length = 0
  · have hms : finditer (compileTargets repl) runs.flatten = [] :=
      List.length_eq_zero.mp hemp
    have hTflat : T = runs.flatten := by
      rw [hms] at hpy
      simp only [py_sub_aux, List.drop_zero] at hpy
      exact (Except.ok.inj hpy).symm
    refine ⟨(runs', (finditer (compileTargets repl) runs.flatten).length), (runs, 0),
      hpf, ?_, ?_, by simp [hemp], rfl⟩
    · simp only [replace_collapsing_runs]
      rw [hpy, hms]
      rfl
    · show runs'.flatten = runs.flatten
      rw [hflat, hTflat]
  · refine ⟨(runs', (finditer (compileTargets repl) runs.flatten).length),
      ([T], (finditer (compileTargets repl) runs.flatten).length), hpf, ?_, ?_, rfl, rfl⟩
    · simp only [replace_collapsing_runs]
      rw [hpy]
      show (if (finditer (compileTargets repl) runs.flatten).length = 0 then
          (pure (runs, 0) : Except PyErr (List Str × Nat))
        else pure ([T], (finditer (compileTargets repl) runs.flatten).length)) = _
      rw [if_neg hemp]
      rfl
    · show runs'.flatten = [T].flatten
      rw [hflat]
      simp

end ClientCloak

namespace ClientCloak

/-! ## Longest-match ordering -/

theorem insertByLenDesc_sorted {x : Str} :
    ∀ {l : List Str}, List.Pairwise (fun a b : Str => b.length ≤ a.length) l →
      List.Pairwise (fun a b : Str => b.length ≤ a.length) (insertByLenDesc x l)
  | [], _ => List.pairwise_singleton _ _
  | y :: ys, h => by
    obtain ⟨hy, hys⟩ := List.pairwise_cons.mp h
    unfold insertByLenDesc
    by_cases hc : x.length ≤ y.length
    · rw [if_pos hc]
      refine List.pairwise_cons.mpr ⟨?_, insertByLenDesc_sorted hys⟩
      intro a ha
      rcases mem_insertByLenDesc.mp ha with rfl | ha2
      · exact hc
      · exact hy a ha2
    · rw [if_neg hc]
      refine List.pairwise_cons.mpr ⟨?_, h⟩
      intro a ha
      rcases List.mem_cons.mp ha with rfl | ha2
      · omega
      · have := hy a ha2
        omega

theorem sortTargets_sorted (ks : List Str) :
    List.Pairwise (fun a b : Str => b.length ≤ a.length) (sortTargets ks) := by
  have hgen : ∀ (l acc : List Str),
      List.Pairwise (fun a b : Str => b.length ≤ a.length) acc →
      List.Pairwise (fun a b : Str => b.length ≤ a.length)
        (l.foldl (fun acc k => insertByLenDesc k acc) acc) := by
    intro l
    induction l with
    | nil => intro acc h; exact h
    | cons k rest ih =>
      intro acc h
      rw [List.foldl_cons]
      exact ih _ (insertByLenDesc_sorted h)
  exact hgen ks [] List.Pairwise.nil

/-- With targets sorted longest-first, the alternation's match at a position
is at least as long as any target that matches there. -/
theorem tryAlts_longest :
    ∀ {ts : List Str} {text : Str} {i : Nat} {t : Str},
      List.Pairwise (fun a b : Str => b.length ≤ a.length) ts → t ∈ ts →
      i + t.length ≤ text.length →
      py_lower ((text.drop i).take t.length) = py_lower t →
      ∃ m, tryAlts ts text i = some m ∧ t.length ≤ m.length
  | [], _, _, _, _, ht, _, _ => absurd ht (List.not_mem_nil _)
  | t0 :: rest, text, i, t, hsort, ht, hb, hm => by
    obtain ⟨h0, hrest⟩ := List.pairwise_cons.mp hsort
    unfold tryAlts
    by_cases hc : (decide (i + t0.length ≤ text.length)
        && (py_lower ((text.drop i).take t0.length) == py_lower t0)) = true
    · rw [if_pos hc]
      rw [Bool.and_eq_true, decide_eq_true_eq, beq_iff_eq] at hc
      refine ⟨(text.drop i).take t0.length, rfl, ?_⟩
      have hlen : ((text.drop i).take t0.length).length = t0.length := by
        simp [List.length_take, List.length_drop]
        omega
      rw [hlen]
      rcases List.mem_cons.mp ht with rfl | ht2
      · exact Nat.le_refl _
      · exact h0 t ht2
    · rw [if_neg hc]
      have ht2 : t ∈ rest := by
        rcases List.mem_cons.mp ht with rfl | ht2
        · exfalso
          apply hc
          rw [Bool.and_eq_true, decide_eq_true_eq, beq_iff_eq]
          exact ⟨hb, hm⟩
        · exact ht2
      exact tryAlts_longest hrest ht2 hb hm

end ClientCloak

namespace ClientCloak

/-! ## Claim theorems -/

/-- Claim C2 witness: the splicer/flat-substitution equivalence at the
spec's own cross-run example. -/
theorem claim_C2_witness : ∃ out1 out2,
    replace_preserving_format
      ["Agreement with Acme".toList, " Corporation for services.".toList]
      (["Agreement with Acme".toList, " Corporation for services.".toList]).flatten
      (build_char_map ["Agreement with Acme".toList, " Corporation for services.".toList])
      (compileTargets [("Acme Corporation".toList, "[VENDOR]".toList)])
      [("Acme Corporation".toList, "[VENDOR]".toList)] true = .ok out1
    ∧ replace_collapsing_runs
      ["Agreement with Acme".toList, " Corporation for services.".toList]
      (["Agreement with Acme".toList, " Corporation for services.".toList]).flatten
      (compileTargets [("Acme Corporation".toList, "[VENDOR]".toList)])
      [("Acme Corporation".toList, "[VENDOR]".toList)] true = .ok out2
    ∧ out1.1.flatten = out2.1.flatten
    ∧ out1.2 = out2.2
    ∧ out1.2 = (finditer (compileTargets [("Acme Corporation".toList, "[VENDOR]".toList)])
        (["Agreement with Acme".toList, " Corporation for services.".toList]).flatten).length :=
  claim_C2 [("Acme Corporation".toList, "[VENDOR]".toList)]
    ["Agreement with Acme".toList, " Corporation for services.".toList] true (by decide)

/-- Claim C3: longest-match precedence — the spec's example replaces
"Acme Corporation" with `[PARTY_A]` and the later bare "Acme" with
`[SHORT]` (one of each, never `"[SHORT] Corporation"`); in general the
compiled target order is descending by length, and the alternation's match
at a position is at least as long as any target matching there. -/
theorem claim_C3 :
    (replace_text_in_document [["Acme Corporation and Acme".toList]]
        [("Acme Corporation".toList, "[PARTY_A]".toList), ("Acme".toList, "[SHORT]".toList)]
        true = .ok ([["[PARTY_A] and [SHORT]".toList]], 2)
      ∧ countOccur "[PARTY_A]".toList "[PARTY_A] and [SHORT]".toList = 1
      ∧ countOccur "[SHORT]".toList "[PARTY_A] and [SHORT]".toList = 1
      ∧ countOccur "[SHORT] Corporation".toList "[PARTY_A] and [SHORT]".toList = 0)
    ∧ (∀ ks : List Str,
        List.Pairwise (fun a b : Str => b.length ≤ a.length) (sortTargets ks))
    ∧ (∀ (ts : List Str) (text : Str) (i : Nat) (t : Str),
        List.Pairwise (fun a b : Str => b.length ≤ a.length) ts → t ∈ ts →
        i + t.length ≤ text.length →
        py_lower ((text.drop i).take t.length) = py_lower t →
        ∃ m, tryAlts ts text i = some m ∧ t.length ≤ m.length) := by
  refine ⟨⟨by rfl, by decide, by decide, by decide⟩, sortTargets_sorted,
    fun ts text i t h1 h2 h3 h4 => tryAlts_longest h1 h2 h3 h4⟩

/-- Claim C3 witness: at position 0 of the example text, the sorted
alternation matches at least the full "Acme Corporation" although the
shorter "Acme" also matches there. -/
theorem claim_C3_witness : ∃ m,
    tryAlts (sortTargets ["Acme Corporation".toList, "Acme".toList])
      "Acme Corporation and Acme".toList 0 = some m
    ∧ ("Acme".toList).length ≤ m.length :=
  claim_C3.2.2 (sortTargets ["Acme Corporation".toList, "Acme".toList])
    "Acme Corporation and Acme".toList 0 "Acme".toList
    (claim_C3.2.1 ["Acme Corporation".toList, "Acme".toList])
    (by decide) (by decide) (by decide)

/-- Claim C4: a bracketed template such as `[AltCustomerName]` is inserted
verbatim for any casing of the matched text, and in general the pipeline's
case-application step leaves every bracketed template unchanged. -/
theorem claim_C4 :
    (replace_text_in_document [["LICENSEE".toList]]
        [("Licensee".toList, "[AltCustomerName]".toList)] true
        = .ok ([["[AltCustomerName]".toList]], 1)
      ∧ replace_text_in_document [["licensee".toList]]
        [("Licensee".toList, "[AltCustomerName]".toList)] true
        = .ok ([["[AltCustomerName]".toList]], 1)
      ∧ replace_text_in_document [["Licensee".toList]]
        [("Licensee".toList, "[AltCustomerName]".toList)] true
        = .ok ([["[AltCustomerName]".toList]], 1))
    ∧ ∀ (matchCase : Bool) (matched template : Str),
        is_bracketed_label template = true →
        apply_case matchCase matched template = template := by
  refine ⟨⟨by rfl, by rfl, by rfl⟩, fun mc matched template h => ?_⟩
  unfold apply_case
  rw [h]
  simp

/-- Claim C4 witness: the bracketed template survives the case-application
step verbatim at a concrete input. -/
theorem claim_C4_witness :
    apply_case true "LICENSEE".toList "[AltCustomerName]".toList =
      "[AltCustomerName]".toList :=
  claim_C4.2 true "LICENSEE".toList "[AltCustomerName]".toList (by decide)

/-- Claim C5: the sentence-case branch of `_transfer_case`.  On the
original "Hello world" — first character uppercase, all others lowercase,
and none of the all-upper/all-lower/title/loose-title rules apply — the
code returns the template with only its first character uppercased and the
remainder UNCHANGED (`replacement[0].upper() + replacement[1:]`), not
lowercased as the claim (and the function's own docstring) state: on
template "aBC" it yields "ABC", not "Abc". -/
theorem claim_C5 :
    (("Hello world".toList.headD ' ').isUpper = true
      ∧ ("Hello world".toList.drop 1).all (fun c => !c.isUpper) = true
      ∧ py_isupper "Hello world".toList = false
      ∧ py_islower "Hello world".toList = false
      ∧ py_istitle "Hello world".toList = false)
    ∧ transfer_case "Hello world".toList "aBC".toList = "ABC".toList
    ∧ "ABC".toList ≠ "Abc".toList := by
  refine ⟨⟨by decide, by decide, by decide, by decide, by decide⟩, by rfl, by decide⟩

/-- Claim C6 counterexample: the standalone `_transfer_case` does NOT leave
a bracketed template unchanged — the placeholder exception lives in its
callers, not in the function itself: `_transfer_case("ACME", "[x]")`
uppercases the bracketed template. -/
theorem claim_C6_counterexample :
    is_bracketed_label "[x]".toList = true
    ∧ transfer_case "ACME".toList "[x]".toList = "[X]".toList
    ∧ "[X]".toList ≠ "[x]".toList := by
  refine ⟨by decide, by rfl, by decide⟩

/-- Claim C6 (amended): the placeholder exception holds for the
substitution pipeline's case-application step (the call-site guard
`match_case and not _is_bracketed_label(...)` shared by both strategies),
which returns every bracketed template unchanged for every original —
while `_transfer_case` alone does not implement the exception. -/
theorem claim_C6 (matchCase : Bool) (original template : Str)
    (h : is_bracketed_label template = true) :
    apply_case matchCase original template = template := by
  unfold apply_case
  rw [h]
  simp

/-- Claim C6 witness: the pipeline's case-application step at a concrete
bracketed template. -/
theorem claim_C6_witness :
    apply_case true "ACME".toList "[x]".toList = "[x]".toList :=
  claim_C6 true "ACME".toList "[x]".toList (by decide)

/-- Claim C7: forward case mirroring through the full pipeline for
`{"acme": "vendor"}` — an all-uppercase occurrence uppercases the
template, all-lowercase lowercases it, and title case title-cases it. -/
theorem claim_C7 :
    replace_text_in_document [["ACME shipped.".toList]]
      [("acme".toList, "vendor".toList)] true = .ok ([["VENDOR shipped.".toList]], 1)
    ∧ replace_text_in_document [["acme shipped.".toList]]
      [("acme".toList, "vendor".toList)] true = .ok ([["vendor shipped.".toList]], 1)
    ∧ replace_text_in_document [["Acme shipped.".toList]]
      [("acme".toList, "vendor".toList)] true = .ok ([["Vendor shipped.".toList]], 1) := by
  refine ⟨by rfl, by rfl, by rfl⟩

end ClientCloak

namespace ClientCloak

/-- Claim C8 counterexample: a replacement dictionary containing an
empty-string original is NOT a harmless no-op — on a paragraph with
non-empty text the scanner yields a zero-width match at end-of-text, and
`char_map[start]` raises IndexError (the char map has one entry per
character, none at the end position). -/
theorem claim_C8_counterexample :
    replace_text_in_document [["ab".toList]] [([], "X".toList)] true
      = .error .indexError := by rfl

/-- Claim C8 (amended): an empty replacement dictionary is a no-op on the
whole document (count 0, nothing touched, no error), and a paragraph whose
flattened text is empty is a no-op for any pattern — but a dictionary
containing an empty-string original on non-empty paragraph text raises an
IndexError instead of being a no-op. -/
theorem claim_C8 :
    (∀ (doc : List (List Str)) (matchCase : Bool),
      replace_text_in_document doc [] matchCase = .ok (doc, 0))
    ∧ (∀ (runs : List Str) (ts : List Str) (lk : List (Str × Str)) (matchCase : Bool),
        runs.flatten = [] →
        replace_in_paragraph runs ts lk matchCase = .ok (runs, 0)) := by
  refine ⟨fun doc mc => rfl, fun runs ts lk mc hflat => ?_⟩
  unfold replace_in_paragraph
  by_cases h1 : runs.isEmpty
  · rw [if_pos h1]
  · rw [if_neg h1, if_pos (by rw [hflat]; rfl)]

/-- Claim C8 witness: the no-op guarantees at concrete inputs. -/
theorem claim_C8_witness :
    replace_text_in_document [["ab".toList]] [] true = .ok ([["ab".toList]], 0)
    ∧ replace_in_paragraph [[]] ["x".toList] [("x".toList, "y".toList)] true
      = .ok ([[]], 0) :=
  ⟨claim_C8.1 [["ab".toList]] true,
    claim_C8.2 [[]] ["x".toList] [("x".toList, "y".toList)] true (by rfl)⟩

/-- Claim C9: `_replace_preserving_format` contains no `raise
_FallbackNeeded` — the result is never that signal — so
`_replace_in_paragraph` never executes the run-collapsing fallback, and a
successful substitution pass leaves the paragraph's run count unchanged. -/
theorem claim_C9 :
    (∀ (runs : List Str) (fullText : Str) (cm : List (Nat × Nat)) (ts : List Str)
        (lk : List (Str × Str)) (matchCase : Bool),
      replace_preserving_format runs fullText cm ts lk matchCase
        ≠ .error .fallbackNeeded)
    ∧ (∀ (runs ts : List Str) (lk : List (Str × Str)) (matchCase : Bool)
        (runs' : List Str) (n : Nat),
        replace_in_paragraph runs ts lk matchCase = .ok (runs', n) →
        runs'.length = runs.length) :=
  ⟨replace_preserving_format_no_fallback,
    fun runs ts lk mc _ _ h => replace_in_paragraph_no_collapse runs ts lk mc h⟩

/-- Claim C9 witness: a concrete cross-run pass keeps both runs (the second
one emptied, not removed). -/
theorem claim_C9_witness :
    (["Agreement with [VENDOR]".toList, " for services.".toList]).length =
      (["Agreement with Acme".toList, " Corporation for services.".toList]).length :=
  claim_C9.2 ["Agreement with Acme".toList, " Corporation for services.".toList]
    (compileTargets [("Acme Corporation".toList, "[VENDOR]".toList)])
    [("Acme Corporation".toList, "[VENDOR]".toList)] true
    ["Agreement with [VENDOR]".toList, " for services.".toList] 1 (by rfl)

/-- Claim C10: matches are computed once on the original flattened text, so
replacement-introduced text is never rescanned in the same pass — with
`{"Acme": "Beta Corp", "Corp": "[C]"}`, the "Corp" inside the inserted
"Beta Corp" survives while the original standalone "Corp" becomes `[C]`;
the run-collapsing strategy behaves identically. -/
theorem claim_C10 :
    replace_text_in_document [["Acme and Corp".toList]]
      [("Acme".toList, "Beta Corp".toList), ("Corp".toList, "[C]".toList)] true
      = .ok ([["Beta Corp and [C]".toList]], 2)
    ∧ replace_collapsing_runs ["Acme and Corp".toList] "Acme and Corp".toList
      (compileTargets [("Acme".toList, "Beta Corp".toList), ("Corp".toList, "[C]".toList)])
      [("Acme".toList, "Beta Corp".toList), ("Corp".toList, "[C]".toList)] true
      = .ok (["Beta Corp and [C]".toList], 2)
    ∧ countOccur "Corp".toList "Beta Corp and [C]".toList = 1
    ∧ countOccur "[C]".toList "Beta Corp and [C]".toList = 1 := by
  refine ⟨by rfl, by rfl, by decide, by decide⟩

end ClientCloak

namespace ClientCloak

/-! ## Bracket-character facts -/

theorem toLower_eq_lbracket {c : Char} (h : Char.toLower c = '[') : c = '[' := by
  unfold Char.toLower at h
  by_cases hc : 65 ≤ c.toNat ∧ c.toNat ≤ 90
  · exfalso
    rw [if_pos hc] at h
    have hv : (c.toNat + 32).isValidChar := by
      left
      omega
    have h2 : (Char.ofNat (c.toNat + 32)).toNat = c.toNat + 32 := by
      rw [Char.ofNat, dif_pos hv]
      rfl
    rw [h] at h2
    have h3 : ('[').toNat = 91 := by decide
    omega
  · rw [if_neg hc] at h
    exact h

theorem toLower_eq_rbracket {c : Char} (h : Char.toLower c = ']') : c = ']' := by
  unfold Char.toLower at h
  by_cases hc : 65 ≤ c.toNat ∧ c.toNat ≤ 90
  · exfalso
    rw [if_pos hc] at h
    have hv : (c.toNat + 32).isValidChar := by
      left
      omega
    have h2 : (Char.ofNat (c.toNat + 32)).toNat = c.toNat + 32 := by
      rw [Char.ofNat, dif_pos hv]
      rfl
    rw [h] at h2
    have h3 : (']').toNat = 93 := by decide
    omega
  · rw [if_neg hc] at h
    exact h

/-! ## Shift lemmas for the scanner -/

theorem shiftMatches_zero (ms : List (Nat × Nat × Str)) : shiftMatches 0 ms = ms := by
  unfold shiftMatches
  conv_rhs => rw [← List.map_id ms]
  apply List.map_congr_left
  intro x _
  simp

theorem shiftMatches_cons (k : Nat) (x : Nat × Nat × Str) (xs : List (Nat × Nat × Str)) :
    shiftMatches k (x :: xs) = (x.1 + k, x.2.1 + k, x.2.2) :: shiftMatches k xs := rfl

theorem shiftMatches_shiftMatches (a b : Nat) (ms : List (Nat × Nat × Str)) :
    shiftMatches a (shiftMatches b ms) = shiftMatches (b + a) ms := by
  unfold shiftMatches
  rw [List.map_map]
  apply List.map_congr_left
  intro x _
  simp [Nat.add_assoc]

theorem tryAlts_cons_shift (ts : List Str) (c : Char) (v : Str) (i : Nat) :
    tryAlts ts (c :: v) (i + 1) = tryAlts ts v i := by
  induction ts with
  | nil => rfl
  | cons t rest ih =>
    have hcond : (i + 1 + t.length ≤ v.length + 1) ↔ (i + t.length ≤ v.length) := by omega
    simp only [tryAlts, List.drop_succ_cons, List.length_cons, hcond, ih]

theorem finditerFrom_cons_shift (ts : List Str) (c : Char) (v : Str) :
    ∀ (n pos : Nat), v.length + 1 - pos ≤ n →
      finditerFrom ts (c :: v) (pos + 1) = shiftMatches 1 (finditerFrom ts v pos)
  | 0, pos, hn => by
    have hpos : v.length < pos := by omega
    rw [finditerFrom_unfold, if_pos (by simp [List.length_cons]; omega)]
    rw [finditerFrom_unfold ts v pos, if_pos hpos]
    rfl
  | n + 1, pos, hn => by
    rw [finditerFrom_unfold, finditerFrom_unfold ts v pos]
    by_cases hpos : v.length < pos
    · rw [if_pos (by simp [List.length_cons]; omega), if_pos hpos]
      rfl
    · rw [if_neg (by simp [List.length_cons]; omega), if_neg hpos]
      rw [tryAlts_cons_shift]
      cases htry : tryAlts ts v pos with
      | none =>
        show finditerFrom ts (c :: v) (pos + 1 + 1) = _
        have h1 : pos + 1 + 1 = (pos + 1) + 1 := rfl
        rw [h1, finditerFrom_cons_shift ts c v n (pos + 1) (by omega)]
      | some m =>
        show (pos + 1, pos + 1 + m.length, m) ::
            finditerFrom ts (c :: v) (pos + 1 + max m.length 1) = _
        rw [shiftMatches_cons]
        have h1 : pos + 1 + m.length = pos + m.length + 1 := by omega
        have h2 : pos + 1 + max m.length 1 = (pos + max m.length 1) + 1 := by omega
        have hmax : 1 ≤ max m.length 1 := Nat.le_max_right _ _
        rw [h1, h2, finditerFrom_cons_shift ts c v n (pos + max m.length 1) (by omega)]

theorem finditerFrom_append_shift (ts : List Str) (v : Str) :
    ∀ (u : Str) (pos : Nat),
      finditerFrom ts (u ++ v) (u.length + pos) = shiftMatches u.length (finditerFrom ts v pos)
  | [], pos => by
    simp [shiftMatches_zero]
  | c :: u', pos => by
    have h1 : (c :: u').length + pos = (u'.length + pos) + 1 := by
      simp [List.length_cons]
      omega
    rw [h1]
    show finditerFrom ts (c :: (u' ++ v)) ((u'.length + pos) + 1) = _
    rw [finditerFrom_cons_shift ts c (u' ++ v) ((u' ++ v).length + 1) (u'.length + pos)
      (by omega)]
    rw [finditerFrom_append_shift ts v u' pos]
    rw [shiftMatches_shiftMatches]
    congr 1

end ClientCloak

namespace ClientCloak

/-! ## Gap and token scanning -/

theorem cleanTok_length {p : Str} (h : CleanTok p) : 2 ≤ p.length := by
  obtain ⟨mid, rfl, _⟩ := h
  simp

theorem cleanTok_getD_zero {p : Str} (h : CleanTok p) : p.getD 0 ' ' = '[' := by
  obtain ⟨mid, rfl, _⟩ := h
  rfl

theorem cleanTok_getD_last {p : Str} (h : CleanTok p) :
    p.getD (p.length - 1) ' ' = ']' := by
  obtain ⟨mid, rfl, _⟩ := h
  have hlen : (('[' :: mid) ++ [']']).length - 1 = ('[' :: mid).length := by
    simp
  rw [hlen]
  exact getD_append_cons

theorem cleanTok_getD_mid {p : Str} (h : CleanTok p) {i : Nat} (h1 : 1 ≤ i)
    (h2 : i < p.length - 1) : p.getD i ' ' ≠ '[' ∧ p.getD i ' ' ≠ ']' := by
  obtain ⟨mid, rfl, hmid⟩ := h
  obtain ⟨j, rfl⟩ : ∃ j, i = j + 1 := ⟨i - 1, by omega⟩
  have hj : j < mid.length := by
    simp at h2
    omega
  have hget : ((('[' :: mid) ++ [']']).getD (j + 1) ' ') = mid.getD j ' ' := by
    rw [getD_append_left (by simp; omega)]
    rfl
  rw [hget]
  rw [getD_eq_getElem hj]
  exact hmid _ (List.getElem_mem hj)

theorem py_lower_length (s : Str) : (py_lower s).length = s.length := by
  simp [py_lower]

theorem py_lower_getD {A B : Str} (h : py_lower A = py_lower B) (i : Nat) :
    Char.toLower (A.getD i ' ') = Char.toLower (B.getD i ' ') := by
  have hlen : A.length = B.length := by
    have := congrArg List.length h
    rwa [py_lower_length, py_lower_length] at this
  by_cases hi : i < A.length
  · obtain ⟨a, ha, hda⟩ := getD_of_lt (d := ' ') hi
    obtain ⟨b, hb, hdb⟩ := getD_of_lt (d := ' ') (hlen ▸ hi)
    have h1 : (py_lower A)[i]? = some (Char.toLower a) := by
      rw [py_lower, List.getElem?_map, ha]
      rfl
    have h2 : (py_lower B)[i]? = some (Char.toLower b) := by
      rw [py_lower, List.getElem?_map, hb]
      rfl
    rw [h] at h1
    rw [h1] at h2
    rw [hda, hdb]
    exact Option.some.inj h2
  · have ha : A.getD i ' ' = ' ' := by
      simp [List.getD_eq_getElem?_getD, List.getElem?_eq_none (by omega : A.length ≤ i)]
    have hb : B.getD i ' ' = ' ' := by
      simp [List.getD_eq_getElem?_getD, List.getElem?_eq_none (by omega : B.length ≤ i)]
    rw [ha, hb]

/-- At a non-`[` character, no bracket-delimited target can match. -/
theorem tryAlts_gap {ts : List Str} (htok : ∀ t ∈ ts, CleanTok t) {c : Char} {v : Str}
    (hc : c ≠ '[') : tryAlts ts (c :: v) 0 = none := by
  induction ts with
  | nil => rfl
  | cons t rest ih =>
    unfold tryAlts
    have hcond : ¬ ((decide (0 + t.length ≤ (c :: v).length)
        && (py_lower (((c :: v).drop 0).take t.length) == py_lower t)) = true) := by
      intro hcnd
      rw [Bool.and_eq_true, decide_eq_true_eq, beq_iff_eq] at hcnd
      obtain ⟨hble, hbeq⟩ := hcnd
      have ht := htok t (List.mem_cons_self _ _)
      have hlow := py_lower_getD hbeq 0
      have hlen2 : 2 ≤ t.length := cleanTok_length ht
      have hspan0 : (((c :: v).drop 0).take t.length).getD 0 ' ' = c := by
        obtain ⟨k, hk⟩ : ∃ k, t.length = k + 1 := ⟨t.length - 1, by omega⟩
        rw [hk]
        rfl
      rw [hspan0, cleanTok_getD_zero ht] at hlow
      have : Char.toLower '[' = '[' := by decide
      rw [this] at hlow
      exact hc (toLower_eq_lbracket hlow)
    rw [if_neg hcond]
    exact ih (fun t ht => htok t (List.mem_cons_of_mem _ ht))

/-- Scanning a bracket-free prefix only shifts the matches found after it. -/
theorem finditerFrom_skip_gap {ts : List Str} (htok : ∀ t ∈ ts, CleanTok t) :
    ∀ (g : Str) (X : Str), (∀ c ∈ g, c ≠ '[') →
      finditerFrom ts (g ++ X) 0 = shiftMatches g.length (finditerFrom ts X 0)
  | [], X, _ => by simp [shiftMatches_zero]
  | c :: g', X, hg => by
    rw [finditerFrom_unfold]
    have hlen : ¬ ((c :: g' ++ X).length < 0) := by omega
    rw [if_neg hlen]
    have hc : c ≠ '[' := hg c (List.mem_cons_self _ _)
    rw [show ((c :: g') ++ X) = c :: (g' ++ X) from rfl]
    rw [tryAlts_gap htok hc]
    show finditerFrom ts (c :: (g' ++ X)) (0 + 1) = _
    rw [finditerFrom_cons_shift ts c (g' ++ X) ((g' ++ X).length + 1) 0 (by omega)]
    rw [finditerFrom_skip_gap htok g' X (fun a ha => hg a (List.mem_cons_of_mem _ ha))]
    rw [shiftMatches_shiftMatches]
    rfl

/-- A bracket-free string contains no match at all. -/
theorem finditer_gap_only {ts : List Str} (htok : ∀ t ∈ ts, CleanTok t) {g : Str}
    (hg : ∀ c ∈ g, c ≠ '[') : finditerFrom ts g 0 = [] := by
  have h0 : finditerFrom ts ([] : Str) 0 = [] := by
    rw [finditerFrom_unfold]
    have : ¬ (([] : Str).length < 0) := by omega
    rw [if_neg this]
    have htry : tryAlts ts ([] : Str) 0 = none := by
      induction ts with
      | nil => rfl
      | cons t rest ih =>
        unfold tryAlts
        have hcond : ¬ ((decide (0 + t.length ≤ ([] : Str).length)
            && (py_lower ((([] : Str).drop 0).take t.length) == py_lower t)) = true) := by
          intro hcnd
          rw [Bool.and_eq_true, decide_eq_true_eq, beq_iff_eq] at hcnd
          obtain ⟨hble, _⟩ := hcnd
          have h2 := cleanTok_length (htok t (List.mem_cons_self _ _))
          simp only [List.length_nil] at hble
          omega
        rw [if_neg hcond]
        exact ih (fun t ht => htok t (List.mem_cons_of_mem _ ht))
    rw [htry]
    rw [finditerFrom_unfold]
    have hlt : ([] : Str).length < 0 + 1 := by decide
    rw [if_pos hlt]
  have := finditerFrom_skip_gap htok g [] hg
  rw [List.append_nil] at this
  rw [this, h0]
  rfl

end ClientCloak

namespace ClientCloak

/-- Bracket confinement: a clean bracketed target that matches
(case-insensitively) at the start of `tok ++ rest'` with clean `tok` has
exactly `tok`'s length — its closing `]` can neither land inside `tok`'s
interior nor skip over `tok`'s closing `]`. -/
theorem tok_span_len {t tok rest' : Str} (ht : CleanTok t) (htok : CleanTok tok)
    (_hble : t.length ≤ (tok ++ rest').length)
    (hlow : py_lower ((tok ++ rest').take t.length) = py_lower t) :
    t.length = tok.length := by
  have ht2 := cleanTok_length ht
  have htok2 := cleanTok_length htok
  by_contra hne
  rcases Nat.lt_or_ge t.length tok.length with hlt | hge
  · -- closing bracket of t would land in tok's interior
    have hi1 : 1 ≤ t.length - 1 := by omega
    have hi2 : t.length - 1 < tok.length - 1 := by omega
    have hspan : (tok ++ rest').take t.length = tok.take t.length := by
      rw [List.take_append_of_le_length (by omega)]
    have hgd : ((tok ++ rest').take t.length).getD (t.length - 1) ' '
        = tok.getD (t.length - 1) ' ' := by
      rw [hspan, getD_take (by omega)]
    have hlow2 := py_lower_getD hlow (t.length - 1)
    have hlast : t.getD (t.length - 1) ' ' = ']' := cleanTok_getD_last ht
    rw [hgd, hlast] at hlow2
    have hlr : Char.toLower ']' = ']' := by decide
    rw [hlr] at hlow2
    have := toLower_eq_rbracket hlow2
    exact (cleanTok_getD_mid htok hi1 hi2).2 this
  · have hgt : tok.length < t.length := by omega
    -- tok's closing bracket sits in t's interior
    have hi1 : 1 ≤ tok.length - 1 := by omega
    have hi2 : tok.length - 1 < t.length - 1 := by omega
    have hgd : ((tok ++ rest').take t.length).getD (tok.length - 1) ' '
        = tok.getD (tok.length - 1) ' ' := by
      rw [getD_take (by omega)]
      exact getD_append_left (by omega)
    have hlow2 := py_lower_getD hlow (tok.length - 1)
    have hlast : tok.getD (tok.length - 1) ' ' = ']' := cleanTok_getD_last htok
    rw [hgd, hlast] at hlow2
    have hlr : Char.toLower ']' = ']' := by decide
    rw [hlr] at hlow2
    have := toLower_eq_rbracket hlow2.symm
    exact (cleanTok_getD_mid ht hi1 hi2).2 this

/-- At the start of an inserted token, the alternation matches exactly the
token's text (whichever clean target fires). -/
theorem tryAlts_tok : ∀ {ts : List Str}, (∀ t ∈ ts, CleanTok t) →
    ∀ {tok rest' : Str}, tok ∈ ts → CleanTok tok →
      tryAlts ts (tok ++ rest') 0 = some tok
  | [], _, _, _, hmem, _ => absurd hmem (List.not_mem_nil _)
  | t0 :: tsr, htok, tok, rest', hmem, hclean => by
    unfold tryAlts
    by_cases hc : (decide (0 + t0.length ≤ (tok ++ rest').length)
        && (py_lower (((tok ++ rest').drop 0).take t0.length) == py_lower t0)) = true
    · rw [if_pos hc]
      rw [Bool.and_eq_true, decide_eq_true_eq, beq_iff_eq] at hc
      obtain ⟨hble, hbeq⟩ := hc
      rw [List.drop_zero] at hbeq
      have hlen : t0.length = tok.length :=
        tok_span_len (htok t0 (List.mem_cons_self _ _)) hclean (by omega) hbeq
      congr 1
      rw [List.drop_zero, hlen]
      exact take_append_of_length _ rfl
    · rw [if_neg hc]
      have hmem2 : tok ∈ tsr := by
        rcases List.mem_cons.mp hmem with rfl | h2
        · exfalso
          apply hc
          rw [Bool.and_eq_true, decide_eq_true_eq, beq_iff_eq]
          constructor
          · simp
          · rw [List.drop_zero, take_append_of_length _ rfl]
        · exact h2
      exact tryAlts_tok (fun t h => htok t (List.mem_cons_of_mem _ h)) hmem2 hclean

/-- Scanning from an inserted token: the token is matched whole and the scan
continues right after it. -/
theorem finditer_tok {ts : List Str} (htok : ∀ t ∈ ts, CleanTok t)
    {tok T1 : Str} (hmem : tok ∈ ts) (hclean : CleanTok tok) :
    finditerFrom ts (tok ++ T1) 0 =
      (0, tok.length, tok) :: shiftMatches tok.length (finditerFrom ts T1 0) := by
  rw [finditerFrom_unfold]
  have hlen : ¬ ((tok ++ T1).length < 0) := by omega
  rw [if_neg hlen, tryAlts_tok htok hmem hclean]
  have htl := cleanTok_length hclean
  have hmax : max tok.length 1 = tok.length := Nat.max_eq_left (by omega)
  show (0, 0 + tok.length, tok) :: finditerFrom ts (tok ++ T1) (0 + max tok.length 1) = _
  rw [hmax, Nat.zero_add]
  have hsh2 := finditerFrom_append_shift ts T1 tok 0
  rw [Nat.add_zero] at hsh2
  rw [hsh2]

end ClientCloak

namespace ClientCloak

/-! ## Dictionary lookup bookkeeping for the round trip -/

theorem find?_unique {α} {l : List α} {p : α → Bool} {x : α} (hx : x ∈ l)
    (hpx : p x = true) (huniq : ∀ a ∈ l, p a = true → a = x) :
    l.find? p = some x := by
  cases hf : l.find? p with
  | none =>
    exfalso
    have := List.find?_eq_none.mp hf x hx
    rw [hpx] at this
    exact this rfl
  | some q =>
    have hq1 := List.find?_some hf
    have hq2 := List.mem_of_find?_eq_some hf
    rw [huniq q hq2 hq1]

theorem lookupTpl_mem {repl : List (Str × Str)} {key : Str} {t : Str}
    (h : lookupTpl repl key = some t) :
    ∃ p ∈ repl, t = p.2 ∧ py_lower p.1 = key := by
  unfold lookupTpl at h
  cases hf : repl.reverse.find? (fun q => py_lower q.1 == key) with
  | none => rw [hf] at h; cases h
  | some q =>
    rw [hf] at h
    have hq1 := List.find?_some hf
    have hq2 := List.mem_of_find?_eq_some hf
    rw [beq_iff_eq] at hq1
    exact ⟨q, List.mem_reverse.mp hq2, (Option.some.inj h).symm, hq1⟩

theorem nodup_inj {α β} [DecidableEq β] {l : List α} {f : α → β}
    (hnd : (l.map f).Nodup) {a b : α} (ha : a ∈ l) (hb : b ∈ l)
    (hf : f a = f b) : a = b :=
  List.inj_on_of_nodup_map hnd ha hb hf

/-- A dictionary with distinct lowered keys looks up each pair exactly. -/
theorem lookupTpl_exact {D : List (Str × Str)}
    (hkeys : (D.map (fun p => py_lower p.1)).Nodup) {o p : Str}
    (hmem : (o, p) ∈ D) : lookupTpl D (py_lower o) = some p := by
  unfold lookupTpl
  have hfind : D.reverse.find? (fun q => py_lower q.1 == py_lower o) = some (o, p) := by
    apply find?_unique (List.mem_reverse.mpr hmem) (by simp)
    intro a ha hpa
    rw [beq_iff_eq] at hpa
    exact nodup_inj hkeys (List.mem_reverse.mp ha) hmem hpa
  rw [hfind]
  rfl

/-- The inverted dictionary maps each placeholder back to its original,
provided the lowered placeholders are distinct. -/
theorem lookupTpl_inv {D : List (Str × Str)}
    (hvals : (D.map (fun p => py_lower p.2)).Nodup) {o p : Str}
    (hmem : (o, p) ∈ D) :
    lookupTpl (D.map (fun q => (q.2, q.1))) (py_lower p) = some o := by
  unfold lookupTpl
  have hmem2 : (p, o) ∈ D.map (fun q => (q.2, q.1)) :=
    List.mem_map.mpr ⟨(o, p), hmem, rfl⟩
  have hnd2 : ((D.map (fun q => (q.2, q.1))).map (fun p => py_lower p.1)).Nodup := by
    rw [List.map_map]
    exact hvals
  have hfind : (D.map (fun q => (q.2, q.1))).reverse.find?
      (fun q => py_lower q.1 == py_lower p) = some (p, o) := by
    apply find?_unique (List.mem_reverse.mpr hmem2) (by simp)
    intro a ha hpa
    rw [beq_iff_eq] at hpa
    exact nodup_inj hnd2 (List.mem_reverse.mp ha) hmem2 hpa
  rw [hfind]
  rfl

/-- Under the exact-case hypothesis, the forward lookup pairs the matched
text with its template inside the dictionary. -/
theorem matched_pair {D : List (Str × Str)}
    (hkeys : (D.map (fun p => py_lower p.1)).Nodup) {m tpl : Str}
    (hkey : m ∈ D.map (·.1)) (hlk : lookupTpl D (py_lower m) = some tpl) :
    (m, tpl) ∈ D := by
  obtain ⟨q, hq, hq2, hq3⟩ := lookupTpl_mem hlk
  obtain ⟨q', hq', hq'1⟩ := List.mem_map.mp hkey
  have : q' = q := nodup_inj hkeys hq' hq (by rw [hq'1, hq3])
  subst this
  obtain ⟨qa, qb⟩ := q'
  simp only at hq'1
  subst hq'1
  subst hq2
  exact hq

/-! ## Substitution shift -/

theorem py_sub_aux_shift {lk : List (Str × Str)} {mc : Bool} (u v : Str) :
    ∀ (ms : List (Nat × Nat × Str)) (pos : Nat),
      py_sub_aux lk mc (u ++ v) (u.length + pos) (shiftMatches u.length ms)
        = py_sub_aux lk mc v pos ms
  | [], pos => by
    show Except.ok ((u ++ v).drop (u.length + pos)) = Except.ok (v.drop pos)
    congr 1
    rw [List.drop_append]
  | (s, e, m) :: rest, pos => by
    rw [shiftMatches_cons]
    show (do
      let tpl ← match lookupTpl lk (py_lower m) with
        | some t => Except.ok t
        | none => Except.error PyErr.keyError
      let tail ← py_sub_aux lk mc (u ++ v) (e + u.length) (shiftMatches u.length rest)
      pure (((u ++ v).take (s + u.length)).drop (u.length + pos)
        ++ apply_case mc m tpl ++ tail)) = _
    have htail : py_sub_aux lk mc (u ++ v) (e + u.length) (shiftMatches u.length rest)
        = py_sub_aux lk mc v e rest := by
      rw [Nat.add_comm e u.length]
      exact py_sub_aux_shift u v rest e
    have hgap : ((u ++ v).take (s + u.length)).drop (u.length + pos)
        = (v.take s).drop pos := by
      rw [Nat.add_comm s u.length, List.take_append, List.drop_append_eq_append_drop]
      rw [List.drop_of_length_le (by simp), Nat.add_sub_cancel_left, List.nil_append]
    rw [htail, hgap]
    rfl

end ClientCloak

namespace ClientCloak

/-! ## The flat round trip -/

theorem cleanTok_bracketed {p : Str} (h : CleanTok p) : is_bracketed_label p = true := by
  have hlen := cleanTok_length h
  obtain ⟨mid, hp, _⟩ := h
  subst hp
  unfold is_bracketed_label
  rw [Bool.and_eq_true, Bool.and_eq_true]
  refine ⟨⟨?_, ?_⟩, ?_⟩
  · rw [decide_eq_true_eq]
    exact hlen
  · rw [decide_eq_true_eq]
    rfl
  · rw [decide_eq_true_eq]
    show (('[' :: mid) ++ [']']).getLastD ' ' = ']'
    rw [List.getLastD_concat]

/-- A clean bracketed template is never case-transferred. -/
theorem apply_case_clean {c : Bool} {m tpl : Str} (h : CleanTok tpl) :
    apply_case c m tpl = tpl := by
  unfold apply_case
  rw [cleanTok_bracketed h]
  simp

theorem apply_case_false (a b : Str) : apply_case false a b = b := by
  simp [apply_case]

/-- Every target compiled from the inverted dictionary is a clean token. -/
theorem inv_targets_clean {D : List (Str × Str)} (hclean : ∀ p ∈ D, CleanTok p.2) :
    ∀ t ∈ compileTargets (D.map (fun q => (q.2, q.1))), CleanTok t := by
  intro t ht
  have ht' : t ∈ ((D.map (fun q => (q.2, q.1))).map (·.1)) := mem_sortTargets.mp ht
  rw [List.map_map] at ht'
  obtain ⟨p, hp, hp1⟩ := List.mem_map.mp ht'
  rw [← hp1]
  exact hclean p hp

theorem tpl_mem_inv_targets {D : List (Str × Str)} {o tpl : Str} (h : (o, tpl) ∈ D) :
    tpl ∈ compileTargets (D.map (fun q => (q.2, q.1))) := by
  apply mem_sortTargets.mpr
  rw [List.map_map]
  exact List.mem_map.mpr ⟨(o, tpl), h, rfl⟩

/-- The flat round trip: substituting clean tokens into a bracket-free text
with exact-case matches, then scanning the output with the inverted
alternation and substituting the originals back, restores the text from the
given position onward; both passes see the same number of matches. -/
theorem rt_sub {D : List (Str × Str)}
    (hclean : ∀ p ∈ D, CleanTok p.2)
    (hkeys : (D.map (fun p => py_lower p.1)).Nodup)
    (hvals : (D.map (fun p => py_lower p.2)).Nodup)
    {I : Str} (hnb : NoBrk I) :
    ∀ (ms : List (Nat × Nat × Str)) (pos : Nat), ChainMatches I pos ms →
      (∀ x ∈ ms, x.2.2 ∈ D.map (·.1)) →
      ∃ T rms, py_sub_aux D true I pos ms = .ok T
        ∧ finditerFrom (compileTargets (D.map (fun q => (q.2, q.1)))) T 0 = rms
        ∧ rms.length = ms.length
        ∧ py_sub_aux (D.map (fun q => (q.2, q.1))) false T 0 rms = .ok (I.drop pos)
  | [], pos, _, _ => by
    refine ⟨I.drop pos, [], rfl, ?_, rfl, ?_⟩
    · exact finditer_gap_only (inv_targets_clean hclean)
        (fun c hc => (hnb c (List.drop_subset _ _ hc)).1)
    · show Except.ok ((I.drop pos).drop 0) = _
      rw [List.drop_zero]
  | (s, e, m) :: rest, pos, hch, hx => by
    obtain ⟨hps, hse, helen, hm, hchrest⟩ := hch
    obtain ⟨Trest, rmsR, hpyR, hscanR, hlenR, hrevR⟩ :=
      rt_sub hclean hkeys hvals hnb rest e hchrest
        (fun x hx' => hx x (List.mem_cons_of_mem _ hx'))
    obtain ⟨⟨o, tpl⟩, hq, hq1⟩ :=
      List.mem_map.mp (hx (s, e, m) (List.mem_cons_self _ _))
    simp only at hq1
    rw [hq1] at hq
    have hlk : lookupTpl D (py_lower m) = some tpl := lookupTpl_exact hkeys hq
    have hcleanT : CleanTok tpl := hclean (m, tpl) hq
    have hT : py_sub_aux D true I pos ((s, e, m) :: rest)
        = .ok (((I.take s).drop pos) ++ tpl ++ Trest) := by
      show (do
        let t ← match lookupTpl D (py_lower m) with
          | some t => Except.ok t
          | none => Except.error PyErr.keyError
        let tail ← py_sub_aux D true I e rest
        pure (((I.take s).drop pos) ++ apply_case true m t ++ tail)) = _
      rw [hlk, hpyR]
      show Except.ok (((I.take s).drop pos) ++ apply_case true m tpl ++ Trest) = _
      rw [apply_case_clean hcleanT]
    have hgnb : ∀ c ∈ (I.take s).drop pos, c ≠ '[' :=
      fun c hc => (hnb c (List.take_subset _ _ (List.drop_subset _ _ hc))).1
    have hscan : finditerFrom (compileTargets (D.map (fun q => (q.2, q.1))))
        (((I.take s).drop pos) ++ tpl ++ Trest) 0
        = (((I.take s).drop pos).length,
            tpl.length + ((I.take s).drop pos).length, tpl)
          :: shiftMatches (tpl.length + ((I.take s).drop pos).length) rmsR := by
      rw [List.append_assoc]
      rw [finditerFrom_skip_gap (inv_targets_clean hclean) _ _ hgnb]
      rw [finditer_tok (inv_targets_clean hclean) (tpl_mem_inv_targets hq) hcleanT]
      rw [hscanR, shiftMatches_cons, shiftMatches_shiftMatches]
      rw [Nat.zero_add]
    have hlkInv : lookupTpl (D.map (fun q => (q.2, q.1))) (py_lower tpl) = some m :=
      lookupTpl_inv hvals hq
    have htail : py_sub_aux (D.map (fun q => (q.2, q.1))) false
        (((I.take s).drop pos) ++ tpl ++ Trest)
        (tpl.length + ((I.take s).drop pos).length)
        (shiftMatches (tpl.length + ((I.take s).drop pos).length) rmsR)
        = .ok (I.drop e) := by
      have hsh := @py_sub_aux_shift (D.map (fun q => (q.2, q.1))) false
        (((I.take s).drop pos) ++ tpl) Trest rmsR 0
      rw [Nat.add_zero, List.length_append] at hsh
      rw [hrevR] at hsh
      rw [Nat.add_comm tpl.length ((I.take s).drop pos).length]
      exact hsh
    have hrevT : py_sub_aux (D.map (fun q => (q.2, q.1))) false
        (((I.take s).drop pos) ++ tpl ++ Trest) 0
        ((((I.take s).drop pos).length,
            tpl.length + ((I.take s).drop pos).length, tpl)
          :: shiftMatches (tpl.length + ((I.take s).drop pos).length) rmsR)
        = .ok (((I.take s).drop pos) ++ m ++ I.drop e) := by
      show (do
        let t ← match lookupTpl (D.map (fun q : Str × Str => (q.2, q.1))) (py_lower tpl) with
          | some t => Except.ok t
          | none => Except.error PyErr.keyError
        let tail ← py_sub_aux (D.map (fun q : Str × Str => (q.2, q.1))) false
          (((I.take s).drop pos) ++ tpl ++ Trest)
          (tpl.length + ((I.take s).drop pos).length)
          (shiftMatches (tpl.length + ((I.take s).drop pos).length) rmsR)
        pure (((((I.take s).drop pos) ++ tpl ++ Trest).take
            (((I.take s).drop pos).length)).drop 0
          ++ apply_case false tpl t ++ tail)) = _
      rw [hlkInv, htail]
      show Except.ok (((((I.take s).drop pos) ++ tpl ++ Trest).take
          (((I.take s).drop pos).length)).drop 0
        ++ apply_case false tpl m ++ I.drop e) = _
      rw [List.drop_zero]
      have htk : (((I.take s).drop pos) ++ tpl ++ Trest).take
          (((I.take s).drop pos).length) = ((I.take s).drop pos) := by
        rw [List.append_assoc]
        exact take_append_of_length (tpl ++ Trest) rfl
      rw [htk, apply_case_false, List.append_assoc]
    have hre : ((I.take s).drop pos) ++ m ++ I.drop e = I.drop pos := by
      have h1 : I.drop pos = (I.take s).drop pos ++ I.drop s := drop_split hps
      have h2 : I.drop s = (I.take e).drop s ++ I.drop e :=
        drop_split (Nat.le_of_lt hse)
      have h3 : m = (I.take e).drop s := by
        rw [hm, seg_eq I (Nat.le_of_lt hse)]
      rw [h1, h2, ← h3, List.append_assoc]
    refine ⟨((I.take s).drop pos) ++ tpl ++ Trest,
      (((I.take s).drop pos).length,
          tpl.length + ((I.take s).drop pos).length, tpl)
        :: shiftMatches (tpl.length + ((I.take s).drop pos).length) rmsR,
      hT, hscan, ?_, by rw [hrevT, hre]⟩
    simp only [List.length_cons, shiftMatches, List.length_map]
    rw [hlenR]

end ClientCloak

namespace ClientCloak

theorem inv_keys_ne {D : List (Str × Str)} (hclean : ∀ p ∈ D, CleanTok p.2) :
    ∀ p ∈ D.map (fun q => (q.2, q.1)), p.1 ≠ [] := by
  intro p hp
  obtain ⟨q, hq, hq1⟩ := List.mem_map.mp hp
  have h2 := cleanTok_length (hclean q hq)
  intro hnil
  rw [← hq1] at hnil
  simp only at hnil
  rw [hnil] at h2
  simp only [List.length_nil] at h2
  omega

/-- One paragraph's round trip: the forward pass with clean tokens and exact
case, followed by the reverse pass with the inverted dictionary, restores the
flattened text and reports the same count. -/
theorem para_rt {D : List (Str × Str)} (hne : ∀ p ∈ D, p.1 ≠ [])
    (hclean : ∀ p ∈ D, CleanTok p.2)
    (hkeys : (D.map (fun p => py_lower p.1)).Nodup)
    (hvals : (D.map (fun p => py_lower p.2)).Nodup)
    {runs : List Str} (hnb : NoBrk runs.flatten)
    (hexact : ∀ x ∈ finditer (compileTargets D) runs.flatten,
      x.2.2 ∈ D.map (·.1)) :
    ∃ runs1 n runs2,
      replace_in_paragraph runs (compileTargets D) D true = .ok (runs1, n)
      ∧ replace_in_paragraph runs1
          (compileTargets (D.map (fun q => (q.2, q.1))))
          (D.map (fun q => (q.2, q.1))) false = .ok (runs2, n)
      ∧ runs2.flatten = runs.flatten := by
  by_cases h1 : runs.isEmpty
  · refine ⟨runs, 0, runs, ?_, ?_, rfl⟩
    · unfold replace_in_paragraph
      rw [if_pos h1]
    · unfold replace_in_paragraph
      rw [if_pos h1]
  · by_cases h2 : runs.flatten.isEmpty
    · refine ⟨runs, 0, runs, ?_, ?_, rfl⟩
      · unfold replace_in_paragraph
        rw [if_neg h1, if_pos h2]
      · unfold replace_in_paragraph
        rw [if_neg h1, if_pos h2]
    · by_cases h3 : (finditer (compileTargets D) runs.flatten).isEmpty
      · refine ⟨runs, 0, runs, ?_, ?_, rfl⟩
        · unfold replace_in_paragraph
          rw [if_neg h1, if_neg h2, if_pos h3]
        · have hfi2 : finditer (compileTargets (D.map (fun q => (q.2, q.1))))
              runs.flatten = [] := by
            rw [finditer_eq_from]
            exact finditer_gap_only (inv_targets_clean hclean)
              (fun c hc => (hnb c hc).1)
          unfold replace_in_paragraph
          rw [if_neg h1, if_neg h2, hfi2]
          rfl
      · have htsne := compileTargets_ne hne
        have hch : ChainMatches runs.flatten 0
            (finditer (compileTargets D) runs.flatten) := finditer_chain htsne
        obtain ⟨T, rms, hpyT, hscanT, hlenT, hrevT⟩ :=
          rt_sub hclean hkeys hvals hnb
            (finditer (compileTargets D) runs.flatten) 0 hch hexact
        obtain ⟨runs1, T1, hpf, hpy1, hflat1, hlen1⟩ := @preserve_eq_sub D runs true hne
        have hTT : T = T1 := by
          rw [hpyT] at hpy1
          exact Except.ok.inj hpy1
        subst hTT
        have hfwd : replace_in_paragraph runs (compileTargets D) D true
            = .ok (runs1, (finditer (compileTargets D) runs.flatten).length) := by
          unfold replace_in_paragraph
          rw [if_neg h1, if_neg h2, if_neg h3, hpf]
        have hr1 : ¬(runs1.isEmpty = true) := by
          intro hc
          apply h1
          rw [List.isEmpty_iff] at hc ⊢
          rw [← List.length_eq_zero, ← hlen1, hc]
          rfl
        have hmsne : finditer (compileTargets D) runs.flatten ≠ [] := by
          intro hc
          apply h3
          rw [hc]
          rfl
        have hrmsne : rms ≠ [] := by
          intro hc
          rw [hc] at hlenT
          simp only [List.length_nil] at hlenT
          exact hmsne (List.length_eq_zero.mp hlenT.symm)
        have hTne2 : ¬(runs1.flatten.isEmpty = true) := by
          rw [hflat1]
          intro hc
          rw [List.isEmpty_iff] at hc
          apply hrmsne
          rw [← hscanT, hc]
          exact finditer_gap_only (inv_targets_clean hclean)
            (fun c hc' => absurd hc' (List.not_mem_nil c))
        have hfi2 : finditer (compileTargets (D.map (fun q => (q.2, q.1))))
            runs1.flatten = rms := by
          rw [finditer_eq_from, hflat1, hscanT]
        have hfine : ¬((finditer (compileTargets (D.map (fun q => (q.2, q.1))))
            runs1.flatten).isEmpty = true) := by
          rw [hfi2]
          intro hc
          exact hrmsne (List.isEmpty_iff.mp hc)
        obtain ⟨runs2, T2, hpf2, hpy2, hflat2, hlen2⟩ :=
          @preserve_eq_sub (D.map (fun q => (q.2, q.1))) runs1 false (inv_keys_ne hclean)
        have hT2 : T2 = runs.flatten := by
          rw [hfi2, hflat1] at hpy2
          rw [hrevT] at hpy2
          rw [← Except.ok.inj hpy2, List.drop_zero]
        have hrev : replace_in_paragraph runs1
            (compileTargets (D.map (fun q => (q.2, q.1))))
            (D.map (fun q => (q.2, q.1))) false = .ok (runs2, rms.length) := by
          unfold replace_in_paragraph
          rw [if_neg hr1, if_neg hTne2, if_neg hfine, hpf2, hfi2]
        refine ⟨runs1, (finditer (compileTargets D) runs.flatten).length, runs2,
          hfwd, ?_, ?_⟩
        · rw [hrev, hlenT]
        · rw [hflat2, hT2]

end ClientCloak

namespace ClientCloak

/-- The document fold of the two passes: every paragraph is rewritten by the
forward pass and restored by the reverse pass, and the counts agree. -/
theorem rtd_fold {D : List (Str × Str)} (hne : ∀ p ∈ D, p.1 ≠ [])
    (hclean : ∀ p ∈ D, CleanTok p.2)
    (hkeys : (D.map (fun p => py_lower p.1)).Nodup)
    (hvals : (D.map (fun p => py_lower p.2)).Nodup) :
    ∀ (doc : List (List Str)),
      (∀ para ∈ doc, NoBrk para.flatten) →
      (∀ para ∈ doc, ∀ x ∈ finditer (compileTargets D) para.flatten,
        x.2.2 ∈ D.map (·.1)) →
      ∀ (A1 A2 : List (List Str)) (k1 k2 : Nat),
      ∃ O n O2,
        (doc.foldlM
          (fun acc para => do
            let (newRuns, n) ← replace_in_paragraph para (compileTargets D) D true
            return (acc.1 ++ [newRuns], acc.2 + n))
          (A1, k1) : Except PyErr (List (List Str) × Nat))
          = Except.ok (A1 ++ O, k1 + n)
        ∧ (O.foldlM
          (fun acc para => do
            let (newRuns, n) ← replace_in_paragraph para
              (compileTargets (D.map (fun q : Str × Str => (q.2, q.1))))
              (D.map (fun q : Str × Str => (q.2, q.1))) false
            return (acc.1 ++ [newRuns], acc.2 + n))
          (A2, k2) : Except PyErr (List (List Str) × Nat))
          = Except.ok (A2 ++ O2, k2 + n)
        ∧ O2.map List.flatten = doc.map List.flatten
  | [], _, _, A1, A2, k1, k2 => by
    refine ⟨[], 0, [], ?_, ?_, rfl⟩
    · show (pure (A1, k1) : Except PyErr (List (List Str) × Nat))
        = .ok (A1 ++ [], k1 + 0)
      rw [List.append_nil]
      rfl
    · show (pure (A2, k2) : Except PyErr (List (List Str) × Nat))
        = .ok (A2 ++ [], k2 + 0)
      rw [List.append_nil]
      rfl
  | para :: doc', hnb, hex, A1, A2, k1, k2 => by
    obtain ⟨r1, n1, r2, hfw, hbk, hfl⟩ :=
      para_rt hne hclean hkeys hvals (hnb para (List.mem_cons_self _ _))
        (hex para (List.mem_cons_self _ _))
    obtain ⟨O', n', O2', hfold1, hfold2, hm⟩ :=
      rtd_fold hne hclean hkeys hvals doc'
        (fun p hp => hnb p (List.mem_cons_of_mem _ hp))
        (fun p hp => hex p (List.mem_cons_of_mem _ hp))
        (A1 ++ [r1]) (A2 ++ [r2]) (k1 + n1) (k2 + n1)
    refine ⟨r1 :: O', n1 + n', r2 :: O2', ?_, ?_, ?_⟩
    · show ((do
          let (newRuns, n) ← replace_in_paragraph para (compileTargets D) D true
          pure (A1 ++ [newRuns], k1 + n) : Except PyErr (List (List Str) × Nat))
        >>= fun b => doc'.foldlM
          (fun acc para => do
            let (newRuns, n) ← replace_in_paragraph para (compileTargets D) D true
            return (acc.1 ++ [newRuns], acc.2 + n)) b) = _
      rw [hfw]
      show (doc'.foldlM
          (fun acc para => do
            let (newRuns, n) ← replace_in_paragraph para (compileTargets D) D true
            return (acc.1 ++ [newRuns], acc.2 + n))
          (A1 ++ [r1], k1 + n1) : Except PyErr (List (List Str) × Nat))
        = Except.ok (A1 ++ r1 :: O', k1 + (n1 + n'))
      rw [hfold1, List.append_assoc, List.singleton_append, Nat.add_assoc]
    · show ((do
          let (newRuns, n) ← replace_in_paragraph r1
            (compileTargets (D.map (fun q => (q.2, q.1))))
            (D.map (fun q => (q.2, q.1))) false
          pure (A2 ++ [newRuns], k2 + n) : Except PyErr (List (List Str) × Nat))
        >>= fun b => O'.foldlM
          (fun acc para => do
            let (newRuns, n) ← replace_in_paragraph para
              (compileTargets (D.map (fun q => (q.2, q.1))))
              (D.map (fun q => (q.2, q.1))) false
            return (acc.1 ++ [newRuns], acc.2 + n)) b) = _
      rw [hbk]
      show (O'.foldlM
          (fun acc para => do
            let (newRuns, n) ← replace_in_paragraph para
              (compileTargets (D.map (fun q : Str × Str => (q.2, q.1))))
              (D.map (fun q : Str × Str => (q.2, q.1))) false
            return (acc.1 ++ [newRuns], acc.2 + n))
          (A2 ++ [r2], k2 + n1) : Except PyErr (List (List Str) × Nat))
        = Except.ok (A2 ++ r2 :: O2', k2 + (n1 + n'))
      rw [hfold2, List.append_assoc, List.singleton_append, Nat.add_assoc]
    · show r2.flatten :: O2'.map List.flatten = para.flatten :: doc'.map List.flatten
      rw [hfl, hm]

end ClientCloak

namespace ClientCloak

/-- Claim C1 (amended): for a dictionary of non-empty originals (distinct
when lowercased) mapped to bracket-delimited placeholder tokens (distinct
when lowercased) and a document whose text contains no bracket characters —
so no matched substring can contain a reverse-dictionary key — the forward
pass with `match_case=True` followed by the reverse pass with the inverted
dictionary and `match_case=False` restores every paragraph's flattened text,
provided each forward match hits its dictionary key with the key's exact
casing.  (Without the exact-casing proviso the round trip fails: the forward
pass is case-insensitive and inserts the placeholder verbatim, so the
original casing is lost — see the counterexample.) -/
theorem claim_C1 (D : List (Str × Str)) (doc : List (List Str))
    (hne : ∀ p ∈ D, p.1 ≠ [])
    (hclean : ∀ p ∈ D, CleanTok p.2)
    (hkeys : (D.map (fun p => py_lower p.1)).Nodup)
    (hvals : (D.map (fun p => py_lower p.2)).Nodup)
    (hnb : ∀ para ∈ doc, NoBrk para.flatten)
    (hexact : ∀ para ∈ doc, ∀ x ∈ finditer (compileTargets D) para.flatten,
      x.2.2 ∈ D.map (·.1)) :
    ∃ O n O2,
      replace_text_in_document doc D true = .ok (O, n)
      ∧ replace_text_in_document O (D.map (fun q => (q.2, q.1))) false = .ok (O2, n)
      ∧ O2.map List.flatten = doc.map List.flatten := by
  by_cases hD : D.isEmpty
  · refine ⟨doc, 0, doc, ?_, ?_, rfl⟩
    · unfold replace_text_in_document
      rw [if_pos hD]
    · unfold replace_text_in_document
      have hD2 : (D.map (fun q : Str × Str => (q.2, q.1))).isEmpty = true := by
        rw [List.isEmpty_iff] at hD ⊢
        rw [hD]
        rfl
      rw [if_pos hD2]
  · obtain ⟨O, n, O2, hf1, hf2, hmap⟩ :=
      rtd_fold hne hclean hkeys hvals doc hnb hexact [] [] 0 0
    refine ⟨O, n, O2, ?_, ?_, hmap⟩
    · simp only [replace_text_in_document]
      rw [if_neg hD, hf1, List.nil_append, Nat.zero_add]
    · have hD2 : ¬((D.map (fun q : Str × Str => (q.2, q.1))).isEmpty = true) := by
        intro hc
        apply hD
        rw [List.isEmpty_iff] at hc ⊢
        exact List.map_eq_nil_iff.mp hc
      simp only [replace_text_in_document]
      rw [if_neg hD2, hf2, List.nil_append, Nat.zero_add]

end ClientCloak

namespace ClientCloak

/-- Claim C1 counterexample: the round trip is NOT byte-identical for every
input satisfying the documented precondition.  `"ACME ships."` contains no
placeholder (`countOccur "[P]" = 0`, so the no-ambiguity proviso holds), yet
the case-insensitive forward pass matches `"ACME"`, inserts `"[P]"`
verbatim, and the reverse pass restores the dictionary's casing
`"Acme ships."` — not the original `"ACME ships."`. -/
theorem claim_C1_counterexample :
    replace_text_in_document [["ACME ships.".toList]]
      [("Acme".toList, "[P]".toList)] true
      = .ok ([["[P] ships.".toList]], 1)
    ∧ replace_text_in_document [["[P] ships.".toList]]
      [("[P]".toList, "Acme".toList)] false
      = .ok ([["Acme ships.".toList]], 1)
    ∧ "Acme ships.".toList ≠ "ACME ships.".toList
    ∧ countOccur "[P]".toList "ACME ships.".toList = 0 :=
  ⟨by rfl, by rfl, by decide, by decide⟩

/-- Claim C1 witness: the amended round trip at a concrete document, with
every hypothesis discharged. -/
theorem claim_C1_witness :
    (∀ p ∈ [("Acme".toList, "[P]".toList)], p.1 ≠ [])
    ∧ (∀ p ∈ [("Acme".toList, "[P]".toList)], CleanTok p.2)
    ∧ ([("Acme".toList, "[P]".toList)].map (fun p => py_lower p.1)).Nodup
    ∧ ([("Acme".toList, "[P]".toList)].map (fun p => py_lower p.2)).Nodup
    ∧ (∀ para ∈ [["Acme Co".toList]], NoBrk para.flatten)
    ∧ (∀ para ∈ [["Acme Co".toList]],
        ∀ x ∈ finditer (compileTargets [("Acme".toList, "[P]".toList)]) para.flatten,
          x.2.2 ∈ [("Acme".toList, "[P]".toList)].map (·.1))
    ∧ (∃ O n O2,
        replace_text_in_document [["Acme Co".toList]]
          [("Acme".toList, "[P]".toList)] true = .ok (O, n)
        ∧ replace_text_in_document O
            ([("Acme".toList, "[P]".toList)].map (fun q => (q.2, q.1))) false
            = .ok (O2, n)
        ∧ O2.map List.flatten = [["Acme Co".toList]].map List.flatten) :=
  ⟨by decide,
    by
      intro p hp
      rw [List.mem_singleton] at hp
      subst hp
      exact ⟨['P'], by decide, by unfold NoBrk; decide⟩,
    by decide, by decide,
    by
      intro para hp
      rw [List.mem_singleton] at hp
      subst hp
      unfold NoBrk
      decide,
    by decide,
    claim_C1 [("Acme".toList, "[P]".toList)] [["Acme Co".toList]]
      (by decide)
      (by
        intro p hp
        rw [List.mem_singleton] at hp
        subst hp
        exact ⟨['P'], by decide, by unfold NoBrk; decide⟩)
      (by decide) (by decide)
      (by
        intro para hp
        rw [List.mem_singleton] at hp
        subst hp
        unfold NoBrk
        decide)
      (by decide)⟩

end ClientCloak
